import Mathlib

/-!
# Str_me: null-terminated string primitives

A shallow embedding of `src/Str_me/Str_me.c`.

Memory model.  A `char *` is either `NULL` or a pointer into one allocated
object: the object's bytes and an offset into them.  A read or write outside
the object, or through `NULL`, is undefined behaviour, rendered as `none`.
Functions therefore return `Option _`, where `none` means "the C program has
no defined result here"; a returned `char *` is itself a `CharPtr`, so a
function returning a pointer has type `Option CharPtr`
(`some none` is a defined `NULL` result).

Machine integers.  `int` indices and lengths are natural numbers (objects are
assumed shorter than `INT_MAX`); an `int` that may be negative is an `Int`, and
its conversion to `size_t` at a `malloc` wraps modulo `2^64`.
The signedness of plain `char` is implementation-defined and is a parameter
`sgn` of the functions whose result depends on it.

Reads outside an object.  `Str_compare` on an empty string reads the byte before
it.  Next to the strict reading above, `Str_compare.around` runs the same
statements in a memory where such a read yields the byte that lies there.

Heap.  `Str_swap` returns nothing, so its effect is stated on a heap: the list
of the objects allocated so far, with pointers naming an object by its index.
-/

namespace StrMe

/-- One byte of storage. -/
abbrev Byte := Fin 256

/-- A non-null `char *`: the object pointed into and the offset inside it. -/
structure Ptr where
  buf : List Byte
  off : Nat
  deriving DecidableEq, Repr

/-- A `char *` value; `none` is `NULL`. -/
abbrev CharPtr := Option Ptr

/-- Pointer arithmetic `p + 1`. -/
def Ptr.succ (p : Ptr) : Ptr := { p with off := p.off + 1 }

/-- The read `p[i]`: defined only when `p` is not `NULL` and `p + i` lies
inside the object. -/
def load (p : CharPtr) (i : Int) : Option Byte :=
  match p with
  | none => none
  | some q =>
    let a : Int := (q.off : Int) + i
    if 0 ≤ a then q.buf[a.toNat]? else none

/-- The write `buf[i] = c` into an object: defined only inside it. -/
def store (buf : List Byte) (i : Nat) (c : Byte) : Option (List Byte) :=
  if i < buf.length then some (buf.set i c) else none

/-- Integer promotion of a `char` holding byte `b`: with a signed `char`
(`sgn = true`) the bytes from 128 up are negative. -/
def charToInt (sgn : Bool) (b : Byte) : Int :=
  if sgn && decide (128 ≤ b.val) then (b.val : Int) - 256 else (b.val : Int)

/-- The allocator behind `malloc`: which request sizes fail, and the
indeterminate bytes a fresh object starts with. -/
structure Allocator where
  fails : Nat → Bool
  junk : Nat → Byte

/-- The call `malloc(n)`: `none` is the `NULL` of a failed allocation, otherwise a
fresh object of `n` bytes. -/
def malloc (A : Allocator) (n : Nat) : Option (List Byte) :=
  if A.fails n then none else some ((List.range n).map A.junk)

/-- The content of the string `p` points to: the bytes before the first zero
byte, when there is a zero byte in the object at or after `p`. -/
def cstr (p : Ptr) : Option (List Byte) :=
  let t := p.buf.drop p.off
  let s := t.takeWhile (fun c => c != 0)
  if s.length < t.length then some s else none

/-- A `for`/`while` loop over an index `i` and a buffer: `cond i` is the loop
test, `body i buf` one iteration; the index is incremented after each
iteration.  The first argument bounds the number of iterations. -/
def forLoop (cond : Nat → Option Bool) (body : Nat → List Byte → Option (List Byte)) :
    Nat → Nat → List Byte → Option (List Byte)
  | 0, _, _ => none
  | fuel + 1, i, buf =>
    match cond i with
    | none => none
    | some false => some buf
    | some true =>
      match body i buf with
      | none => none
      | some buf1 => forLoop cond body fuel (i + 1) buf1

/-- The loop of `Str_len`: `while (str[len] != 0) ++len;`. -/
def Str_len.loop (str : CharPtr) : Nat → Nat → Option Nat
  | 0, _ => none
  | fuel + 1, len =>
    match load str len with
    | none => none
    | some c => if c ≠ 0 then Str_len.loop str fuel (len + 1) else some len

/-- The number of bytes of the object of `p` (0 for `NULL`). -/
def objSize (p : CharPtr) : Nat :=
  match p with
  | none => 0
  | some q => q.buf.length

/-- The function `Str_len(str)`: the scan reads `str[0], str[1], ...` up to the first zero
byte; it leaves the object when there is none. -/
def Str_len (str : CharPtr) : Option Nat :=
  Str_len.loop str (objSize str + 1) 0

/-- The function `Str_concatenate(str1, str2)`.  The lengths are recomputed by `Str_len` at
every use, as in the source. -/
def Str_concatenate (A : Allocator) (str1 str2 : CharPtr) : Option CharPtr := do
  let n1 ← Str_len str1
  let n2 ← Str_len str2
  match malloc A (n1 + n2 + 1) with
  | none => pure none
  | some New_Str =>
    -- for (int i = 0; i < Str_len(str1); ++i) New_Str[i] = str1[i];
    let b1 ← forLoop
      (fun i => do let n ← Str_len str1; pure (decide (i < n)))
      (fun i buf => do let c ← load str1 i; store buf i c)
      (n1 + 1) 0 New_Str
    -- for (int i = 0; i < Str_len(str2); ++i) New_Str[Str_len(str1) + i] = str2[i];
    let b2 ← forLoop
      (fun i => do let n ← Str_len str2; pure (decide (i < n)))
      (fun i buf => do let n ← Str_len str1; let c ← load str2 i; store buf (n + i) c)
      (n2 + 1) 0 b1
    -- New_Str[Str_len(str1) + Str_len(str2)] = 0;
    let m1 ← Str_len str1
    let m2 ← Str_len str2
    let b3 ← store b2 (m1 + m2) 0
    pure (some ⟨b3, 0⟩)

/-- The function `Str_copy(Father, Child)`: the incoming `Child` is overwritten by the result
of `malloc` before any use. -/
def Str_copy (A : Allocator) (Father : CharPtr) (_Child : CharPtr) : Option CharPtr := do
  let n ← Str_len Father
  match malloc A (n + 1) with
  | none => pure none
  | some Child =>
    -- for (int i = 0; i <= Str_len(Father); ++i) Child[i] = Father[i];
    let b ← forLoop
      (fun i => do let m ← Str_len Father; pure (decide (i ≤ m)))
      (fun i buf => do let c ← load Father i; store buf i c)
      (n + 2) 0 Child
    pure (some ⟨b, 0⟩)

/-- Modelled from the spec: the minimum-integer value `INT_MIN` that signals a
`NULL` argument (`<limits.h>` is not among the sources), for a 32-bit `int`. -/
def INT_MIN : Int := -2147483648

/-- The statement after the loop of `Str_compare`:
`return str2[Str_len(str2) - 1] - str1[Str_len(str1) - 1];`
with `str1`, `str2` as the loop left them. -/
def Str_compare.last (sgn : Bool) (str1 str2 : Ptr) : Option Int := do
  let n2 ← Str_len (some str2)
  let c2 ← load (some str2) ((n2 : Int) - 1)
  let n1 ← Str_len (some str1)
  let c1 ← load (some str1) ((n1 : Int) - 1)
  pure (charToInt sgn c2 - charToInt sgn c1)

/-- The loop of `Str_compare` together with the return that follows it:
`while (*str1 && *str2) { if (*str1 != *str2) return *str2 - *str1; str1++; str2++; }`. -/
def Str_compare.loop (sgn : Bool) : Nat → Ptr → Ptr → Option Int
  | 0, _, _ => none
  | fuel + 1, str1, str2 => do
    let c1 ← load (some str1) 0
    if c1 ≠ 0 then
      let c2 ← load (some str2) 0
      if c2 ≠ 0 then
        if c1 ≠ c2 then
          pure (charToInt sgn c2 - charToInt sgn c1)
        else
          Str_compare.loop sgn fuel str1.succ str2.succ
      else
        Str_compare.last sgn str1 str2
    else
      Str_compare.last sgn str1 str2

/-- The function `Str_compare(str1, str2)`: `INT_MIN` when either argument is
`NULL`, otherwise the scan. -/
def Str_compare (sgn : Bool) (str1 str2 : CharPtr) : Option Int :=
  match str1, str2 with
  | some p1, some p2 => Str_compare.loop sgn (p1.buf.length + 1) p1 p2
  | _, _ => some INT_MIN

/-- The loop of `Str_memchr`:
`for (int i = 0; i < len; ++i) { if (*target == c) return target; target++; }`
followed by `return NULL`. -/
def Str_memchr.loop (sgn : Bool) (c len : Int) : Nat → Nat → Ptr → Option CharPtr
  | 0, _, _ => none
  | fuel + 1, i, target =>
    if (i : Int) < len then do
      let b ← load (some target) 0
      if charToInt sgn b = c then
        pure (some target)
      else
        Str_memchr.loop sgn c len fuel (i + 1) target.succ
    else
      pure none

/-- The function `Str_memchr(str, c, len)`: the result is `NULL` or a pointer into the object
of `str`. -/
def Str_memchr (sgn : Bool) (str : CharPtr) (c len : Int) : Option CharPtr :=
  match str with
  | none => some none
  | some p => Str_memchr.loop sgn c len (len.toNat + 1) 0 p

/-- The function `Str_Revers_String(str)`.  The closing `Str_copy(str, reversedStr)` allocates
an object of its own and its result is dropped. -/
def Str_Revers_String (A : Allocator) (str : CharPtr) : Option CharPtr :=
  match str with
  | none => some none
  | some _ => do
    let n ← Str_len str
    match malloc A (n + 1) with
    | none => pure none
    | some reversedStr =>
      let len ← Str_len str
      -- for (int i = 0; i < len; ++i) reversedStr[i] = str[len - i - 1];
      let b ← forLoop
        (fun i => pure (decide (i < len)))
        (fun i buf => do let c ← load str ((len : Int) - (i : Int) - 1); store buf i c)
        (len + 1) 0 reversedStr
      let b1 ← store b len 0
      let _ ← Str_copy A str (some ⟨b1, 0⟩)
      pure (some ⟨b1, 0⟩)

/-- Conversion of an `int` value to `size_t`, taken as 64 bits wide, as at the
argument of `malloc`: a negative value wraps around. -/
def toSizeT (x : Int) : Nat := (x % 18446744073709551616).toNat

/-- The loop of `Str_copy_n` with the statements that follow it:
`for (; i < n; ++i) { Child[i] = Father[i]; if (Father[i] == 0) return Child; }`
then `Child[i] = 0; return Child;`.  The result is the object of `Child`. -/
def Str_copy_n.loop (Father : CharPtr) (n : Int) : Nat → Nat → List Byte → Option (List Byte)
  | 0, _, _ => none
  | fuel + 1, i, Child =>
    if (i : Int) < n then do
      let c ← load Father i
      let Child1 ← store Child i c
      let c1 ← load Father i
      if c1 = 0 then
        pure Child1
      else
        Str_copy_n.loop Father n fuel (i + 1) Child1
    else
      store Child i 0

/-- The function `Str_copy_n(Father, Child, n)`: `NULL` for a `NULL` `Child`;
otherwise `Child` is replaced by `malloc(sizeof(char) * (n + 1))`. -/
def Str_copy_n (A : Allocator) (Father Child : CharPtr) (n : Int) : Option CharPtr :=
  match Child with
  | none => some none
  | some _ =>
    match malloc A (toSizeT (n + 1)) with
    | none => some none
    | some Child1 => do
      let b ← Str_copy_n.loop Father n (n.toNat + 1) 0 Child1
      pure (some ⟨b, 0⟩)

/-- The write `p[i] = c` through a pointer. -/
def storeAt (p : Ptr) (i : Nat) (c : Byte) : Option Ptr :=
  (store p.buf (p.off + i) c).map fun b => ⟨b, p.off⟩

/-- The loop of `Str_concatenate_n` with the statements that follow it; `temp` is
the pointer `Str_copy(str2, temp)` returned:
`for (; i < n; ++i) { temp[i + Str_len(str2)] = str1[i];`
`if (str1[i] == 0) { Str_copy(temp, str2); return Str_copy(temp, str2); } }`
then `temp[i + Str_len(str2)] = 0; Str_copy(temp, str2); return Str_copy(temp, str2);`. -/
def Str_concatenate_n.loop (A : Allocator) (str1 str2 : CharPtr) (n : Int) :
    Nat → Nat → Ptr → Option CharPtr
  | 0, _, _ => none
  | fuel + 1, i, temp =>
    if (i : Int) < n then do
      let n2 ← Str_len str2
      let c ← load str1 i
      let temp1 ← storeAt temp (i + n2) c
      let c1 ← load str1 i
      if c1 = 0 then do
        let _ ← Str_copy A (some temp1) str2
        Str_copy A (some temp1) str2
      else
        Str_concatenate_n.loop A str1 str2 n fuel (i + 1) temp1
    else do
      let n2 ← Str_len str2
      let temp1 ← storeAt temp (i + n2) 0
      let _ ← Str_copy A (some temp1) str2
      Str_copy A (some temp1) str2

/-- The function `Str_concatenate_n(str1, str2, n)`.  The object obtained from
`malloc((Str_len(str1) + n + 1) * sizeof(char))` is dropped at once:
`temp = Str_copy(str2, temp)` makes `temp` the object `Str_copy` allocated,
of `Str_len(str2) + 1` bytes.  Writing through a `NULL` `temp` is undefined. -/
def Str_concatenate_n (A : Allocator) (str1 str2 : CharPtr) (n : Int) : Option CharPtr :=
  match str1, str2 with
  | some _, some _ => do
    let n1 ← Str_len str1
    match malloc A (toSizeT ((n1 : Int) + n + 1)) with
    | none => pure none
    | some temp0 =>
      let temp ← Str_copy A str2 (some ⟨temp0, 0⟩)
      match temp with
      | none => none
      | some t => Str_concatenate_n.loop A str1 str2 n (n.toNat + 1) 0 t
  | _, _ => some none

/-- A pointer into a heap of objects: the index of the object and the offset
inside it. -/
structure HPtr where
  obj : Nat
  off : Nat
  deriving DecidableEq, Repr

/-- The heap: the objects allocated so far, a freed one being `none`. -/
abbrev Heap := List (Option (List Byte))

/-- The `char *` a heap pointer stands for.  `NULL` stays `NULL`; a pointer to a
freed or unknown object has nothing to read. -/
def heapView (h : Heap) (p : Option HPtr) : CharPtr :=
  match p with
  | none => none
  | some q =>
    match h[q.obj]? with
    | some (some buf) => some ⟨buf, q.off⟩
    | _ => some ⟨[], q.off⟩

/-- The call `Str_copy(Father, Child)` on a heap.  `Str_copy` writes only to the
object it obtains from `malloc`, so the heap gains that object, filled as
`Str_copy` fills it, and the returned pointer points to it. -/
def Str_copy.onHeap (A : Allocator) (h : Heap) (Father Child : Option HPtr) :
    Option (Option HPtr × Heap) :=
  match Str_copy A (heapView h Father) (heapView h Child) with
  | none => none
  | some none => some (none, h)
  | some (some r) => some (some ⟨h.length, r.off⟩, h ++ [some r.buf])

/-- The call `free(p)`: nothing for `NULL`, otherwise the live object `p` points
to the start of is released. -/
def free (h : Heap) (p : Option HPtr) : Option Heap :=
  match p with
  | none => some h
  | some q =>
    match h[q.obj]? with
    | some (some _) => if q.off = 0 then some (h.set q.obj none) else none
    | _ => none

/-- The function `Str_swap(str1, str2)` on a heap; it returns nothing, and what
it leaves behind is the heap.  `str1` and `str2` are passed by value. -/
def Str_swap (A : Allocator) (h : Heap) (str1 str2 : Option HPtr) : Option Heap :=
  match str1, str2 with
  | some _, some _ =>
    -- char *temp = Str_copy(str1, NULL);
    match Str_copy.onHeap A h str1 none with
    | none => none
    | some (temp, h1) =>
      -- Str_copy(str2, str1);
      match Str_copy.onHeap A h1 str2 str1 with
      | none => none
      | some (_, h2) =>
        -- Str_copy(temp, str2);
        match Str_copy.onHeap A h2 temp str2 with
        | none => none
        | some (_, h3) => free h3 temp
  | _, _ => some h

/-- Modelled from the spec: `pow` of `<math.h>`, taken as exact integer
exponentiation (the rounding of the floating-point `pow` is left out). -/
def pow (base : Int) (e : Int) : Int := base ^ e.toNat

/-- The loop of `Str_string_to_integer`:
`for (int i = 0; i < Len; ++i) num += (long) pow(base, Len - i - 1) * (str[i] - 48);`. -/
def Str_string_to_integer.loop (sgn : Bool) (str : Ptr) (base Len : Int) :
    Nat → Nat → Int → Option Int
  | 0, _, _ => none
  | fuel + 1, i, num =>
    if (i : Int) < Len then do
      let c ← load (some str) i
      Str_string_to_integer.loop sgn str base Len fuel (i + 1)
        (num + pow base (Len - (i : Int) - 1) * (charToInt sgn c - 48))
    else
      pure num

/-- The function `Str_string_to_integer(str, base)`; `long` is taken wide enough
for the value. -/
def Str_string_to_integer (sgn : Bool) (str : CharPtr) (base : Int) : Option Int :=
  match str with
  | none => some 0
  | some p =>
    if base < 2 then some 0
    else do
      let Len ← Str_len (some p)
      let c ← load (some p) 0
      -- if (*str == 45) { sign = 0; Len--; str++; }
      let (sign, Len1, str1) :=
        if c = 45 then (false, (Len : Int) - 1, p.succ) else (true, (Len : Int), p)
      let num ← Str_string_to_integer.loop sgn str1 base Len1 (Len + 1) 0 0
      if !sign then pure (-num) else pure num

/-- The positional value of the bytes `c_0 .. c_(k-1)` read as digits in base
`base`: the sum over `i` of `(c_i - 48) * base ^ (k - 1 - i)`, where 48 is the
character `0`. -/
def digitSum (sgn : Bool) (base : Int) (cs : List Byte) : Int :=
  ((List.range cs.length).map fun i =>
    (charToInt sgn (cs.getD i 0) - 48) * base ^ (cs.length - 1 - i)).sum

/-- The read `p[i]` in a memory where the object of `p` lies among other bytes:
inside the object it is `load`; outside the object it yields the byte
`around a` that the surrounding memory holds there, `a` being the place counted
from the start of the object.  A read through `NULL` stays undefined. -/
def loadAround (around : Int → Byte) (p : CharPtr) (i : Int) : Option Byte :=
  match p with
  | none => none
  | some q =>
    match load (some q) i with
    | some c => some c
    | none => some (around ((q.off : Int) + i))

/-- The statement after the loop of `Str_compare`, as `Str_compare.last`, with the
two indexed reads done by `loadAround`; `ar1` and `ar2` are the surroundings of
the objects of `str1` and `str2`. -/
def Str_compare.lastAround (sgn : Bool) (ar1 ar2 : Int → Byte) (str1 str2 : Ptr) :
    Option Int := do
  let n2 ← Str_len (some str2)
  let c2 ← loadAround ar2 (some str2) ((n2 : Int) - 1)
  let n1 ← Str_len (some str1)
  let c1 ← loadAround ar1 (some str1) ((n1 : Int) - 1)
  pure (charToInt sgn c2 - charToInt sgn c1)

/-- The loop of `Str_compare`, as `Str_compare.loop`, with the reads `*str1` and
`*str2` done by `loadAround`. -/
def Str_compare.loopAround (sgn : Bool) (ar1 ar2 : Int → Byte) : Nat → Ptr → Ptr → Option Int
  | 0, _, _ => none
  | fuel + 1, str1, str2 => do
    let c1 ← loadAround ar1 (some str1) 0
    if c1 ≠ 0 then
      let c2 ← loadAround ar2 (some str2) 0
      if c2 ≠ 0 then
        if c1 ≠ c2 then
          pure (charToInt sgn c2 - charToInt sgn c1)
        else
          Str_compare.loopAround sgn ar1 ar2 fuel str1.succ str2.succ
      else
        Str_compare.lastAround sgn ar1 ar2 str1 str2
    else
      Str_compare.lastAround sgn ar1 ar2 str1 str2

/-- The function `Str_compare(str1, str2)` run in a memory where a read outside
an object yields the byte that lies there instead of being undefined. -/
def Str_compare.around (sgn : Bool) (ar1 ar2 : Int → Byte) (str1 str2 : CharPtr) :
    Option Int :=
  match str1, str2 with
  | some p1, some p2 => Str_compare.loopAround sgn ar1 ar2 (p1.buf.length + 1) p1 p2
  | _, _ => some INT_MIN

/-- What `Str_compare` returns when the scan meets a sentinel: the bytes just
before the two sentinels, read relative to the pointers as passed. -/
def lastBytes (sgn : Bool) (a b : Ptr) (na nb : Nat) : Option Int :=
  (load (some b) ((nb : Int) - 1)).bind fun c2 =>
    (load (some a) ((na : Int) - 1)).bind fun c1 =>
      some (charToInt sgn c2 - charToInt sgn c1)

/-- The test `*target == c` of `Str_memchr` at `target = str + i`. -/
def hit (sgn : Bool) (p : Ptr) (c : Int) (i : Nat) : Bool :=
  match load (some p) (i : Int) with
  | some b => decide (charToInt sgn b = c)
  | none => false

/-- An allocator that never fails and hands out objects filled with `0xFF`. -/
def okAlloc : Allocator := ⟨fun _ => false, fun _ => 255⟩

/-- The string `"hello"` in an object of its own. -/
def hello : Ptr := ⟨[104, 101, 108, 108, 111, 0], 0⟩

/-! ## Reading a string through a pointer -/

theorem load_nat (p : Ptr) (i : Nat) :
    load (some p) (i : Int) = (p.buf.drop p.off)[i]? := by
  have h : 0 ≤ (p.off : Int) + (i : Int) := by omega
  have h2 : ((p.off : Int) + (i : Int)).toNat = p.off + i := by omega
  simp only [load, h, if_true, h2, List.getElem?_drop]

theorem cstr_spec {p : Ptr} {s : List Byte} (h : cstr p = some s) :
    (∀ c ∈ s, c ≠ 0) ∧ ∃ rest, p.buf.drop p.off = s ++ 0 :: rest := by
  unfold cstr at h
  simp only at h
  split at h
  · rename_i hlt
    simp only [Option.some.injEq] at h
    subst h
    refine ⟨fun c hc => by simpa using List.mem_takeWhile_imp hc, ?_⟩
    have hsplit := List.takeWhile_append_dropWhile (fun c => c != 0) (p.buf.drop p.off)
    cases hd : (p.buf.drop p.off).dropWhile (fun c => c != 0) with
    | nil =>
      rw [hd, List.append_nil] at hsplit
      rw [hsplit] at hlt
      exact absurd hlt (lt_irrefl _)
    | cons x rest =>
      have hx : ¬ ((fun c : Byte => c != 0) x = true) := by
        have := List.head_dropWhile_not (fun c : Byte => c != 0) (p.buf.drop p.off)
          (by rw [hd]; simp)
        simpa [hd] using this
      have hx0 : x = 0 := by simpa using hx
      refine ⟨rest, ?_⟩
      rw [hd, hx0] at hsplit
      exact hsplit.symm
  · cases h

theorem cstr_of_eq {p : Ptr} {s : List Byte} (rest : List Byte) (hs : ∀ c ∈ s, c ≠ 0)
    (h : p.buf.drop p.off = s ++ 0 :: rest) : cstr p = some s := by
  have htw : (s ++ 0 :: rest).takeWhile (fun c : Byte => c != 0) = s := by
    rw [List.takeWhile_append_of_pos (by simpa using hs)]
    simp
  unfold cstr
  simp only [h, htw]
  simp

theorem load_cstr {p : Ptr} {s : List Byte} (h : cstr p = some s) (i : Nat)
    (hi : i < s.length) : load (some p) (i : Int) = s[i]? := by
  obtain ⟨_, rest, hr⟩ := cstr_spec h
  rw [load_nat, hr, List.getElem?_append_left hi]

theorem load_cstr_end {p : Ptr} {s : List Byte} (h : cstr p = some s) :
    load (some p) (s.length : Int) = some 0 := by
  obtain ⟨_, rest, hr⟩ := cstr_spec h
  rw [load_nat, hr, List.getElem?_append_right (le_refl _)]
  simp

theorem cstr_ne_zero {p : Ptr} {s : List Byte} (h : cstr p = some s) (i : Nat)
    (hi : i < s.length) : s[i] ≠ 0 :=
  (cstr_spec h).1 _ (List.getElem_mem hi)

theorem cstr_length_lt {p : Ptr} {s : List Byte} (h : cstr p = some s) :
    p.off + s.length < p.buf.length := by
  obtain ⟨_, rest, hr⟩ := cstr_spec h
  have := congrArg List.length hr
  simp only [List.length_drop, List.length_append, List.length_cons] at this
  omega

theorem Str_len_loop_cstr {p : Ptr} {s : List Byte} (h : cstr p = some s) :
    ∀ (fuel len : Nat), len ≤ s.length → s.length < fuel + len →
      Str_len.loop (some p) fuel len = some s.length := by
  intro fuel
  induction fuel with
  | zero => intro len h1 h2; omega
  | succ fuel ih =>
    intro len h1 h2
    unfold Str_len.loop
    rcases Nat.lt_or_ge len s.length with hlt | hge
    · have hl := load_cstr h len hlt
      rw [List.getElem?_eq_getElem hlt] at hl
      have hne := cstr_ne_zero h len hlt
      simp only [hl, hne, ne_eq, not_false_eq_true, if_true]
      exact ih (len + 1) hlt (by omega)
    · have he : len = s.length := le_antisymm h1 hge
      subst he
      simp [load_cstr_end h]

/-- On a terminated string `Str_len` returns the number of content bytes. -/
theorem Str_len_cstr {p : Ptr} {s : List Byte} (h : cstr p = some s) :
    Str_len (some p) = some s.length := by
  have := cstr_length_lt h
  exact Str_len_loop_cstr h _ 0 (Nat.zero_le _) (by simp only [objSize]; omega)

/-! ## The copying loops -/

theorem forLoop_store (cond : Nat → Option Bool)
    (body : Nat → List Byte → Option (List Byte)) (n : Nat) (d : Nat → Nat) (v : Nat → Byte)
    (hc : ∀ i, cond i = some (decide (i < n)))
    (hb : ∀ i buf, i < n → body i buf = store buf (d i) (v i))
    (hinj : ∀ k l, k < n → l < n → d k = d l → k = l) :
    ∀ (fuel i : Nat) (buf : List Byte), i ≤ n → n < fuel + i →
      (∀ k, i ≤ k → k < n → d k < buf.length) →
      ∃ r, forLoop cond body fuel i buf = some r ∧ r.length = buf.length ∧
        (∀ k, i ≤ k → k < n → r[d k]? = some (v k)) ∧
        (∀ j, (∀ k, i ≤ k → k < n → d k ≠ j) → r[j]? = buf[j]?) := by
  intro fuel
  induction fuel with
  | zero =>
    intro i buf h0 h1 _
    exact absurd h1 (by omega)
  | succ fuel ih =>
    intro i buf h0 h1 hd
    unfold forLoop
    rw [hc i]
    by_cases hi : i < n
    · have hdi := hd i (le_refl _) hi
      simp only [hi, decide_True, hb i buf hi, store, hdi, if_true]
      obtain ⟨r, hr, hlen, hset, hkeep⟩ := ih (i + 1) (buf.set (d i) (v i)) hi
        (by omega) (fun k hk hkn => by rw [List.length_set]; exact hd k (by omega) hkn)
      refine ⟨r, hr, by rw [hlen, List.length_set], ?_, ?_⟩
      · intro k hk hkn
        rcases Nat.eq_or_lt_of_le hk with he | hlt
        · subst he
          rw [hkeep (d i) (fun l hl hln hEq => by have := hinj l i hln hi hEq; omega)]
          simp [List.getElem?_set, hdi]
        · exact hset k hlt hkn
      · intro j hj
        rw [hkeep j (fun k hk hkn => hj k (by omega) hkn)]
        have hne : d i ≠ j := hj i (le_refl _) hi
        simp [List.getElem?_set, hne]
    · simp only [hi, decide_False]
      refine ⟨buf, rfl, rfl, fun k hk hkn => absurd hkn (by omega), fun j _ => rfl⟩


theorem load_cstr_le {p : Ptr} {s : List Byte} (h : cstr p = some s) (i : Nat)
    (hi : i ≤ s.length) : load (some p) (i : Int) = (s ++ [0])[i]? := by
  rcases Nat.lt_or_ge i s.length with hlt | hge
  · rw [load_cstr h i hlt, List.getElem?_append_left hlt]
  · have he : i = s.length := le_antisymm hi hge
    subst he
    rw [load_cstr_end h, List.getElem?_append_right (le_refl _)]
    simp

theorem Str_concatenate_eq (A : Allocator) {a b : Ptr} {sa sb : List Byte}
    (ha : cstr a = some sa) (hb : cstr b = some sb)
    (hm : A.fails (sa.length + sb.length + 1) = false) :
    Str_concatenate A (some a) (some b) = some (some ⟨sa ++ sb ++ [0], 0⟩) := by
  have hla := Str_len_cstr ha
  have hlb := Str_len_cstr hb
  unfold Str_concatenate
  simp only [hla, hlb, Option.bind_eq_bind, Option.some_bind, malloc, hm, Option.pure_def]
  obtain ⟨r1, hr1, hlen1, hset1, -⟩ := forLoop_store
    (fun i => some (decide (i < sa.length)))
    (fun i buf => (load (some a) ↑i).bind fun c => store buf i c)
    sa.length (fun i => i) (fun i => (sa[i]?).getD 0) (fun _ => rfl)
    (fun i buf hi => by simp [load_cstr ha i hi, List.getElem?_eq_getElem hi])
    (fun k l _ _ h => h) (sa.length + 1) 0
    (List.map A.junk (List.range (sa.length + sb.length + 1))) (Nat.zero_le _) (by omega)
    (fun k _ hk => by simp; omega)
  obtain ⟨r2, hr2, hlen2, hset2, hkeep2⟩ := forLoop_store
    (fun i => some (decide (i < sb.length)))
    (fun i buf => (load (some b) ↑i).bind fun c => store buf (sa.length + i) c)
    sb.length (fun i => sa.length + i) (fun i => (sb[i]?).getD 0) (fun _ => rfl)
    (fun i buf hi => by simp [load_cstr hb i hi, List.getElem?_eq_getElem hi])
    (fun k l _ _ h => by simpa using h) (sb.length + 1) 0 r1 (Nat.zero_le _) (by omega)
    (fun k _ hk => by simp [hlen1]; omega)
  have hlen1' : r1.length = sa.length + sb.length + 1 := by simpa using hlen1
  have hs : sa.length + sb.length < r2.length := by omega
  simp only [hr1, hr2, Option.some_bind, Bool.false_eq_true, if_false]
  simp only [store, hs, if_true, Option.some_bind]
  congr 3
  apply List.ext_getElem?
  intro j
  rcases Nat.lt_or_ge j sa.length with h1 | h1
  · rw [List.getElem?_set_ne (by omega), hkeep2 j (fun k _ _ => by simp; omega)]
    have := hset1 j (Nat.zero_le _) h1
    simp only at this
    rw [this, List.append_assoc, List.getElem?_append_left h1, List.getElem?_eq_getElem h1]
    simp
  · rcases Nat.lt_or_ge j (sa.length + sb.length) with h2 | h2
    · have := hset2 (j - sa.length) (Nat.zero_le _) (by omega)
      simp only at this
      rw [show sa.length + (j - sa.length) = j by omega] at this
      rw [List.getElem?_set_ne (by omega), this, List.append_assoc,
        List.getElem?_append_right h1, List.getElem?_append_left (by omega),
        List.getElem?_eq_getElem (by omega)]
      simp
    · rcases Nat.eq_or_lt_of_le h2 with h3 | h3
      · subst h3
        rw [List.getElem?_set_self, List.getElem?_append_right (by simp)]
        · simp
        · exact hs
      · rw [List.getElem?_eq_none (by simp; omega), List.getElem?_eq_none (by simp; omega)]

theorem Str_copy_eq (A : Allocator) {p : Ptr} {s : List Byte} (Child : CharPtr)
    (hp : cstr p = some s) (hm : A.fails (s.length + 1) = false) :
    Str_copy A (some p) Child = some (some ⟨s ++ [0], 0⟩) := by
  have hl := Str_len_cstr hp
  unfold Str_copy
  simp only [hl, Option.bind_eq_bind, Option.some_bind, malloc, hm, Option.pure_def]
  obtain ⟨r, hr, hlen, hset, -⟩ := forLoop_store
    (fun i => some (decide (i ≤ s.length)))
    (fun i buf => (load (some p) ↑i).bind fun c => store buf i c)
    (s.length + 1) (fun i => i) (fun i => ((s ++ [0])[i]?).getD 0)
    (fun i => by simp [Nat.lt_succ_iff])
    (fun i buf hi => by
      have hi2 : i < (s ++ [0]).length := by simpa using hi
      simp [load_cstr_le hp i (by omega), List.getElem?_eq_getElem hi2])
    (fun k l _ _ h => h) (s.length + 2) 0
    (List.map A.junk (List.range (s.length + 1))) (Nat.zero_le _) (by omega)
    (fun k _ hk => by simpa using hk)
  simp only [hr, Option.some_bind, Bool.false_eq_true, if_false]
  congr 3
  apply List.ext_getElem?
  intro j
  rcases Nat.lt_or_ge j (s.length + 1) with h1 | h1
  · have := hset j (Nat.zero_le _) h1
    simp only at this
    rw [this, List.getElem?_eq_getElem (by simpa using h1)]
    simp
  · rw [List.getElem?_eq_none (by simp [hlen]; omega), List.getElem?_eq_none (by simp; omega)]

theorem Str_Revers_String_eq (A : Allocator) {p : Ptr} {s : List Byte}
    (hp : cstr p = some s) (hm : A.fails (s.length + 1) = false) :
    Str_Revers_String A (some p) = some (some ⟨s.reverse ++ [0], 0⟩) := by
  have hl := Str_len_cstr hp
  unfold Str_Revers_String
  simp only [hl, Option.bind_eq_bind, Option.some_bind, malloc, hm, Option.pure_def]
  obtain ⟨r, hr, hlen, hset, -⟩ := forLoop_store
    (fun i => some (decide (i < s.length)))
    (fun i buf => (load (some p) ((s.length : Int) - (i : Int) - 1)).bind fun c => store buf i c)
    s.length (fun i => i) (fun i => (s[s.length - 1 - i]?).getD 0)
    (fun i => rfl)
    (fun i buf hi => by
      have hc : (s.length : Int) - (i : Int) - 1 = ((s.length - 1 - i : Nat) : Int) := by omega
      have hi2 : s.length - 1 - i < s.length := by omega
      simp [hc, load_cstr hp _ hi2, List.getElem?_eq_getElem hi2])
    (fun k l _ _ h => h) (s.length + 1) 0
    (List.map A.junk (List.range (s.length + 1))) (Nat.zero_le _) (by omega)
    (fun k _ hk => by simp; omega)
  have hlen' : r.length = s.length + 1 := by simpa using hlen
  have hs : s.length < r.length := by omega
  simp only [hr, Option.some_bind, Bool.false_eq_true, if_false]
  simp only [store, hs, if_true, Option.some_bind, Str_copy_eq A _ hp hm]
  congr 3
  apply List.ext_getElem?
  intro j
  rcases Nat.lt_or_ge j s.length with h1 | h1
  · have := hset j (Nat.zero_le _) h1
    simp only at this
    rw [List.getElem?_set_ne (by omega), this,
      List.getElem?_append_left (by simpa using h1), List.getElem?_reverse h1,
      List.getElem?_eq_getElem (by omega)]
    simp
  · rcases Nat.eq_or_lt_of_le h1 with h3 | h3
    · subst h3
      rw [List.getElem?_set_self hs, List.getElem?_append_right (by simp)]
      simp
    · rw [List.getElem?_eq_none (by simp; omega), List.getElem?_eq_none (by simp; omega)]

/-! ## The comparison scan -/

theorem load_succ (p : Ptr) (i : Int) : load (some p.succ) i = load (some p) (i + 1) := by
  have h : ((p.off + 1 : Nat) : Int) + i = (p.off : Int) + (i + 1) := by push_cast; ring
  simp only [load, Ptr.succ, h]

theorem cstr_succ {p : Ptr} {c : Byte} {s : List Byte} (h : cstr p = some (c :: s)) :
    cstr p.succ = some s := by
  obtain ⟨hnz, rest, hr⟩ := cstr_spec h
  refine cstr_of_eq rest (fun x hx => hnz x (List.mem_cons_of_mem _ hx)) ?_
  have : p.buf.drop (p.off + 1) = (p.buf.drop p.off).drop 1 := by
    rw [List.drop_drop, Nat.add_comm]
  simp only [Ptr.succ, this, hr]
  rfl

theorem load_cstr_head {p : Ptr} {c : Byte} {s : List Byte} (h : cstr p = some (c :: s)) :
    load (some p) 0 = some c := by
  simpa using load_cstr h 0 (by simp)

theorem load_cstr_nil {p : Ptr} (h : cstr p = some []) : load (some p) 0 = some 0 := by
  simpa using load_cstr_end h

theorem cstr_head_ne_zero {p : Ptr} {c : Byte} {s : List Byte} (h : cstr p = some (c :: s)) :
    c ≠ 0 :=
  (cstr_spec h).1 c (List.mem_cons_self _ _)

/-- The scan returns at the first index where the contents differ. -/
theorem Str_compare_loop_diff (sgn : Bool) :
    ∀ (i fuel : Nat) (a b : Ptr) (sa sb : List Byte), cstr a = some sa → cstr b = some sb →
      ∀ (hia : i < sa.length) (hib : i < sb.length), sa[i] ≠ sb[i] →
      (∀ j, j < i → sa[j]? = sb[j]?) → i < fuel →
      Str_compare.loop sgn fuel a b = some (charToInt sgn sb[i] - charToInt sgn sa[i]) := by
  intro i
  induction i with
  | zero =>
    intro fuel a b sa sb ha hb hia hib hne _ hf
    obtain ⟨fuel, rfl⟩ : ∃ f, fuel = f + 1 := ⟨fuel - 1, by omega⟩
    cases sa with
    | nil => simp at hia
    | cons c1 ta =>
      cases sb with
      | nil => simp at hib
      | cons c2 tb =>
        simp only [List.getElem_cons_zero] at hne ⊢
        unfold Str_compare.loop
        simp [load_cstr_head ha, load_cstr_head hb, cstr_head_ne_zero ha,
          cstr_head_ne_zero hb, hne]
  | succ i ih =>
    intro fuel a b sa sb ha hb hia hib hne hpre hf
    obtain ⟨fuel, rfl⟩ : ∃ f, fuel = f + 1 := ⟨fuel - 1, by omega⟩
    cases sa with
    | nil => simp at hia
    | cons c1 ta =>
      cases sb with
      | nil => simp at hib
      | cons c2 tb =>
        have h0 : c1 = c2 := by simpa using hpre 0 (by omega)
        subst h0
        simp only [List.getElem_cons_succ] at hne ⊢
        simp only [List.length_cons] at hia hib
        unfold Str_compare.loop
        simp only [load_cstr_head ha, load_cstr_head hb, cstr_head_ne_zero ha, ne_eq,
          not_false_eq_true, if_true, Option.bind_eq_bind, Option.some_bind, not_true_eq_false,
          if_false]
        exact ih fuel a.succ b.succ ta tb (cstr_succ ha) (cstr_succ hb) (by omega) (by omega) hne
          (fun j hj => by simpa using hpre (j + 1) (by omega)) (by omega)

theorem Str_compare_last_eq (sgn : Bool) {a b : Ptr} {sa sb : List Byte}
    (ha : cstr a = some sa) (hb : cstr b = some sb) :
    Str_compare.last sgn a b = lastBytes sgn a b sa.length sb.length := by
  simp only [Str_compare.last, Str_len_cstr ha, Str_len_cstr hb, Option.bind_eq_bind,
    Option.some_bind, lastBytes, Option.pure_def]

theorem lastBytes_succ (sgn : Bool) (a b : Ptr) (na nb : Nat) :
    lastBytes sgn a.succ b.succ na nb = lastBytes sgn a b (na + 1) (nb + 1) := by
  have h1 : ((na : Int) - 1) + 1 = ((na + 1 : Nat) : Int) - 1 := by push_cast; ring
  have h2 : ((nb : Int) - 1) + 1 = ((nb + 1 : Nat) : Int) - 1 := by push_cast; ring
  simp only [lastBytes, load_succ, h1, h2]

/-- The scan meets a sentinel without a difference when one content is a prefix
of the other. -/
theorem Str_compare_loop_tie (sgn : Bool) :
    ∀ (sa sb : List Byte) (fuel : Nat) (a b : Ptr), cstr a = some sa → cstr b = some sb →
      (sa <+: sb ∨ sb <+: sa) → sa.length < fuel →
      Str_compare.loop sgn fuel a b = lastBytes sgn a b sa.length sb.length := by
  intro sa
  induction sa with
  | nil =>
    intro sb fuel a b ha hb _ hf
    obtain ⟨fuel, rfl⟩ : ∃ f, fuel = f + 1 := ⟨fuel - 1, by omega⟩
    unfold Str_compare.loop
    simp [load_cstr_nil ha, Str_compare_last_eq sgn ha hb]
  | cons c1 ta ih =>
    intro sb fuel a b ha hb hpre hf
    obtain ⟨fuel, rfl⟩ : ∃ f, fuel = f + 1 := ⟨fuel - 1, by omega⟩
    cases sb with
    | nil =>
      unfold Str_compare.loop
      simp [load_cstr_head ha, cstr_head_ne_zero ha, load_cstr_nil hb,
        Str_compare_last_eq sgn ha hb]
    | cons c2 tb =>
      have h0 : c1 = c2 ∧ (ta <+: tb ∨ tb <+: ta) := by
        rcases hpre with h | h
        · rw [List.cons_prefix_cons] at h
          exact ⟨h.1, Or.inl h.2⟩
        · rw [List.cons_prefix_cons] at h
          exact ⟨h.1.symm, Or.inr h.2⟩
      obtain ⟨h0, hpre2⟩ := h0
      subst h0
      simp only [List.length_cons] at hf ⊢
      unfold Str_compare.loop
      simp only [load_cstr_head ha, load_cstr_head hb, cstr_head_ne_zero ha, ne_eq,
        not_false_eq_true, if_true, Option.bind_eq_bind, Option.some_bind, not_true_eq_false,
        if_false]
      rw [ih tb fuel a.succ b.succ (cstr_succ ha) (cstr_succ hb) hpre2 (by omega),
        lastBytes_succ]

theorem exists_first_diff :
    ∀ (sa sb : List Byte), ¬ sa <+: sb → ¬ sb <+: sa →
      ∃ (i : Nat) (hia : i < sa.length) (hib : i < sb.length),
        sa[i] ≠ sb[i] ∧ ∀ j, j < i → sa[j]? = sb[j]? := by
  intro sa
  induction sa with
  | nil => intro sb h _; exact absurd (List.nil_prefix) h
  | cons c1 ta ih =>
    intro sb h1 h2
    cases sb with
    | nil => exact absurd (List.nil_prefix) h2
    | cons c2 tb =>
      by_cases hc : c1 = c2
      · subst hc
        have h1' : ¬ ta <+: tb := fun h => h1 (by rw [List.cons_prefix_cons]; exact ⟨rfl, h⟩)
        have h2' : ¬ tb <+: ta := fun h => h2 (by rw [List.cons_prefix_cons]; exact ⟨rfl, h⟩)
        obtain ⟨i, hia, hib, hne, hpre⟩ := ih tb h1' h2'
        refine ⟨i + 1, by simpa using hia, by simpa using hib, by simpa using hne, ?_⟩
        intro j hj
        cases j with
        | zero => simp
        | succ j => simpa using hpre j (by omega)
      · exact ⟨0, by simp, by simp, by simpa using hc, fun j hj => absurd hj (by omega)⟩

/-! ## The byte search -/

theorem load_offset (p : Ptr) (i : Nat) :
    load (some ⟨p.buf, p.off + i⟩) 0 = load (some p) (i : Int) := by
  have h : ((p.off + i : Nat) : Int) + 0 = (p.off : Int) + (i : Int) := by push_cast; ring
  simp only [load, h]

theorem load_in_bounds (p : Ptr) (i : Nat) (h : p.off + i < p.buf.length) :
    ∃ b, load (some p) (i : Int) = some b := by
  rw [load_nat]
  have hi : i < (p.buf.drop p.off).length := by simp; omega
  exact ⟨_, List.getElem?_eq_getElem hi⟩

theorem Str_memchr_loop_found (sgn : Bool) (p : Ptr) (c len : Int) (k : Nat)
    (hk : (k : Int) < len) (hhit : hit sgn p c k = true)
    (hfirst : ∀ j, j < k → hit sgn p c j = false)
    (hbound : p.off + k < p.buf.length) :
    ∀ (fuel i : Nat), i ≤ k → k < fuel + i →
      Str_memchr.loop sgn c len fuel i ⟨p.buf, p.off + i⟩ = some (some ⟨p.buf, p.off + k⟩) := by
  intro fuel
  induction fuel with
  | zero => intro i h1 h2; omega
  | succ fuel ih =>
    intro i h1 h2
    unfold Str_memchr.loop
    have hil : (i : Int) < len := by omega
    obtain ⟨b, hb⟩ := load_in_bounds p i (by omega)
    simp only [hil, if_true, load_offset, hb, Option.bind_eq_bind, Option.some_bind]
    rcases Nat.eq_or_lt_of_le h1 with he | hlt
    · subst he
      have : charToInt sgn b = c := by simpa [hit, hb] using hhit
      simp [this]
    · have : ¬ charToInt sgn b = c := by simpa [hit, hb] using hfirst i hlt
      simp only [this, if_false]
      exact ih (i + 1) hlt (by omega)

theorem Str_memchr_loop_none (sgn : Bool) (p : Ptr) (c len : Int)
    (hnone : ∀ j : Nat, (j : Int) < len → hit sgn p c j = false)
    (hbound : p.off + len.toNat ≤ p.buf.length) :
    ∀ (fuel i : Nat), i ≤ len.toNat → len.toNat < fuel + i →
      Str_memchr.loop sgn c len fuel i ⟨p.buf, p.off + i⟩ = some none := by
  intro fuel
  induction fuel with
  | zero => intro i h1 h2; omega
  | succ fuel ih =>
    intro i h1 h2
    unfold Str_memchr.loop
    by_cases hil : (i : Int) < len
    · obtain ⟨b, hb⟩ := load_in_bounds p i (by omega)
      have : ¬ charToInt sgn b = c := by simpa [hit, hb] using hnone i hil
      simp only [hil, if_true, load_offset, hb, Option.bind_eq_bind, Option.some_bind, this,
        if_false]
      exact ih (i + 1) (by omega) (by omega)
    · simp [hil]

/-! ## Fresh strings -/

theorem cstr_fresh {s : List Byte} (hs : ∀ c ∈ s, c ≠ 0) : cstr ⟨s ++ [0], 0⟩ = some s :=
  cstr_of_eq [] hs (by simp)

theorem load_fresh (s : List Byte) (i : Nat) :
    load (some ⟨s ++ [0], 0⟩) (i : Int) = (s ++ [0])[i]? := by
  rw [load_nat]
  simp

/-! ## Concatenation, copy, reverse -/

/-- C1: for strings `a` and `b` with contents `sa` and `sb`, when the allocation
succeeds `Str_concatenate(a, b)` returns a fresh string holding `sa`, then `sb`,
then the sentinel: its `Str_len` is `Str_len(a) + Str_len(b)`, its first
`Str_len(a)` bytes are the bytes of `a` and the remaining ones the bytes of `b`. -/
theorem Str_concatenate_spec (A : Allocator) (a b : Ptr) (sa sb : List Byte)
    (ha : cstr a = some sa) (hb : cstr b = some sb)
    (hm : A.fails (sa.length + sb.length + 1) = false) :
    Str_concatenate A (some a) (some b) = some (some ⟨sa ++ sb ++ [0], 0⟩) ∧
    Str_len (some a) = some sa.length ∧ Str_len (some b) = some sb.length ∧
    Str_len (some ⟨sa ++ sb ++ [0], 0⟩) = some (sa.length + sb.length) ∧
    cstr ⟨sa ++ sb ++ [0], 0⟩ = some (sa ++ sb) ∧
    (∀ i : Nat, i < sa.length →
      load (some ⟨sa ++ sb ++ [0], 0⟩) (i : Int) = load (some a) (i : Int)) ∧
    (∀ j : Nat, j < sb.length →
      load (some ⟨sa ++ sb ++ [0], 0⟩) ((sa.length + j : Nat) : Int) = load (some b) (j : Int)) := by
  have hnz : ∀ c ∈ sa ++ sb, c ≠ 0 := by
    intro c hc
    rcases List.mem_append.mp hc with h | h
    · exact (cstr_spec ha).1 c h
    · exact (cstr_spec hb).1 c h
  have hr := cstr_fresh hnz
  refine ⟨Str_concatenate_eq A ha hb hm, Str_len_cstr ha, Str_len_cstr hb, ?_, hr, ?_, ?_⟩
  · simpa using Str_len_cstr hr
  · intro i hi
    rw [load_fresh, load_cstr ha i hi, List.getElem?_append_left (by simp; omega),
      List.getElem?_append_left hi]
  · intro j hj
    rw [load_fresh, load_cstr hb j hj, List.getElem?_append_left (by simp; omega),
      List.getElem?_append_right (by omega)]
    simp

theorem Str_concatenate_spec_witness :
    cstr ⟨[104, 105, 0, 7], 0⟩ = some [104, 105] ∧ cstr ⟨[9, 33, 63, 0], 1⟩ = some [33, 63] ∧
    Str_concatenate okAlloc (some ⟨[104, 105, 0, 7], 0⟩) (some ⟨[9, 33, 63, 0], 1⟩)
      = some (some ⟨[104, 105, 33, 63, 0], 0⟩) ∧
    Str_len (some ⟨[104, 105, 33, 63, 0], 0⟩) = some (2 + 2) :=
  have h := Str_concatenate_spec okAlloc ⟨[104, 105, 0, 7], 0⟩ ⟨[9, 33, 63, 0], 1⟩
    [104, 105] [33, 63] (by decide) (by decide) rfl
  ⟨by decide, by decide, h.1, h.2.2.2.1⟩

/-- C2: for a string `s` (content `cs`) and any value of the `Child` argument,
when the allocation succeeds `Str_copy(s, Child)` returns a fresh string with
the same `Str_len` and the same bytes as `s`, sentinel included. -/
theorem Str_copy_spec (A : Allocator) (p : Ptr) (cs : List Byte) (Child : CharPtr)
    (hp : cstr p = some cs) (hm : A.fails (cs.length + 1) = false) :
    Str_copy A (some p) Child = some (some ⟨cs ++ [0], 0⟩) ∧
    Str_len (some ⟨cs ++ [0], 0⟩) = Str_len (some p) ∧
    cstr ⟨cs ++ [0], 0⟩ = cstr p ∧
    (∀ i : Nat, i ≤ cs.length →
      load (some ⟨cs ++ [0], 0⟩) (i : Int) = load (some p) (i : Int)) := by
  have hr := cstr_fresh (cstr_spec hp).1
  refine ⟨Str_copy_eq A Child hp hm, ?_, by rw [hr, hp], ?_⟩
  · rw [Str_len_cstr hr, Str_len_cstr hp]
  · intro i hi
    rw [load_fresh, load_cstr_le hp i hi]

theorem Str_copy_spec_witness :
    cstr hello = some [104, 101, 108, 108, 111] ∧
    Str_copy okAlloc (some hello) (some ⟨[1, 2, 3], 0⟩)
      = some (some ⟨[104, 101, 108, 108, 111, 0], 0⟩) ∧
    Str_len (some ⟨[104, 101, 108, 108, 111, 0], 0⟩) = Str_len (some hello) :=
  have h := Str_copy_spec okAlloc hello [104, 101, 108, 108, 111] (some ⟨[1, 2, 3], 0⟩)
    (by decide) rfl
  ⟨by decide, h.1, h.2.1⟩

/-- C3: for a non-absent string `s` (content `cs`), when the allocations succeed
reversing the result of `Str_Revers_String(s)` again returns a string whose
content is byte-equal to the content of `s`. -/
theorem Str_Revers_String_twice (A : Allocator) (p : Ptr) (cs : List Byte)
    (hp : cstr p = some cs) (hm : A.fails (cs.length + 1) = false) :
    (Str_Revers_String A (some p)).bind (Str_Revers_String A)
      = some (some ⟨cs ++ [0], 0⟩) ∧
    cstr ⟨cs ++ [0], 0⟩ = cstr p := by
  have hnz : ∀ c ∈ cs.reverse, c ≠ 0 := fun c hc => (cstr_spec hp).1 c (List.mem_reverse.mp hc)
  have hr := cstr_fresh hnz
  have h2 := Str_Revers_String_eq A hr (by simpa using hm)
  rw [List.reverse_reverse] at h2
  refine ⟨?_, by rw [cstr_fresh (cstr_spec hp).1, hp]⟩
  rw [Str_Revers_String_eq A hp hm, Option.some_bind, h2]

theorem Str_Revers_String_twice_witness :
    cstr hello = some [104, 101, 108, 108, 111] ∧
    (Str_Revers_String okAlloc (some hello)).bind (Str_Revers_String okAlloc)
      = some (some ⟨[104, 101, 108, 108, 111, 0], 0⟩) :=
  ⟨by decide,
    (Str_Revers_String_twice okAlloc hello [104, 101, 108, 108, 111] (by decide) rfl).1⟩

/-- C4: for a non-absent string `s` of length `n` (content `cs`), when the
allocation succeeds `Str_Revers_String(s)` returns a fresh string of length `n`
whose byte at every index `i < n` is `s[n - 1 - i]`; the closing `Str_copy` call
leaves the returned string as the loop built it. -/
theorem Str_Revers_String_spec (A : Allocator) (p : Ptr) (cs : List Byte)
    (hp : cstr p = some cs) (hm : A.fails (cs.length + 1) = false) :
    Str_Revers_String A (some p) = some (some ⟨cs.reverse ++ [0], 0⟩) ∧
    Str_len (some ⟨cs.reverse ++ [0], 0⟩) = some cs.length ∧
    (∀ i : Nat, i < cs.length →
      load (some ⟨cs.reverse ++ [0], 0⟩) (i : Int)
        = load (some p) ((cs.length : Int) - 1 - (i : Int))) := by
  have hnz : ∀ c ∈ cs.reverse, c ≠ 0 := fun c hc => (cstr_spec hp).1 c (List.mem_reverse.mp hc)
  have hr := cstr_fresh hnz
  refine ⟨Str_Revers_String_eq A hp hm, by simpa using Str_len_cstr hr, ?_⟩
  intro i hi
  have hc : (cs.length : Int) - 1 - (i : Int) = ((cs.length - 1 - i : Nat) : Int) := by omega
  rw [load_fresh, hc, load_cstr hp _ (by omega), List.getElem?_append_left (by simpa using hi),
    List.getElem?_reverse hi]

theorem Str_Revers_String_spec_witness :
    cstr hello = some [104, 101, 108, 108, 111] ∧
    Str_Revers_String okAlloc (some hello)
      = some (some ⟨[111, 108, 108, 101, 104, 0], 0⟩) :=
  ⟨by decide, (Str_Revers_String_spec okAlloc hello [104, 101, 108, 108, 111] (by decide) rfl).1⟩

/-! ## Comparison -/

theorem Str_compare_diff (sgn : Bool) {a b : Ptr} {sa sb : List Byte} {i : Nat}
    (ha : cstr a = some sa) (hb : cstr b = some sb)
    (hia : i < sa.length) (hib : i < sb.length) (hne : sa[i] ≠ sb[i])
    (hpre : ∀ j, j < i → sa[j]? = sb[j]?) :
    Str_compare sgn (some a) (some b) = some (charToInt sgn sb[i] - charToInt sgn sa[i]) := by
  have := cstr_length_lt ha
  exact Str_compare_loop_diff sgn i _ a b sa sb ha hb hia hib hne hpre (by omega)

theorem Str_compare_tie (sgn : Bool) {a b : Ptr} {sa sb : List Byte}
    (ha : cstr a = some sa) (hb : cstr b = some sb) (hpre : sa <+: sb ∨ sb <+: sa) :
    Str_compare sgn (some a) (some b) = lastBytes sgn a b sa.length sb.length := by
  have := cstr_length_lt ha
  exact Str_compare_loop_tie sgn sa sb _ a b ha hb hpre (by omega)

theorem load_last {p : Ptr} {s : List Byte} {c : Byte} (hp : cstr p = some s)
    (hl : s.getLast? = some c) : load (some p) ((s.length : Int) - 1) = some c := by
  have hpos : 0 < s.length := by
    cases s with
    | nil => simp at hl
    | cons x t => simp
  have hc : (s.length : Int) - 1 = ((s.length - 1 : Nat) : Int) := by omega
  rw [hc, load_cstr hp _ (by omega), ← List.getLast?_eq_getElem?, hl]

/-- For every non-empty string `s`, `Str_compare(s, s)` returns 0: the scan runs
to the sentinel and the final statement reads the last content byte twice. -/
theorem Str_compare_self_nonempty (sgn : Bool) (p : Ptr) (s : List Byte) (c : Byte)
    (hp : cstr p = some s) (hl : s.getLast? = some c) :
    Str_compare sgn (some p) (some p) = some 0 := by
  rw [Str_compare_tie sgn hp hp (Or.inl (List.prefix_refl s)), lastBytes, load_last hp hl]
  simp

theorem Str_compare_self_nonempty_witness :
    Str_compare true (some hello) (some hello) = some 0 :=
  Str_compare_self_nonempty true hello [104, 101, 108, 108, 111] 111 (by decide) (by decide)

/-- C6: for non-absent strings `a` and `b` (contents `sa`, `sb`) whose content
bytes first differ at index `i`, `Str_compare(a, b)` returns `b[i] - a[i]`
(the `char` values promoted to `int`); so the result is positive when
`a[i] < b[i]`. -/
theorem Str_compare_first_difference (sgn : Bool) (a b : Ptr) (sa sb : List Byte) (i : Nat)
    (ha : cstr a = some sa) (hb : cstr b = some sb)
    (hia : i < sa.length) (hib : i < sb.length) (hne : sa[i] ≠ sb[i])
    (hpre : ∀ j, j < i → sa[j]? = sb[j]?) :
    Str_compare sgn (some a) (some b) = some (charToInt sgn sb[i] - charToInt sgn sa[i]) ∧
    (charToInt sgn sa[i] < charToInt sgn sb[i] →
      ∃ r, Str_compare sgn (some a) (some b) = some r ∧ 0 < r) := by
  have h := Str_compare_diff sgn ha hb hia hib hne hpre
  exact ⟨h, fun hlt => ⟨_, h, by omega⟩⟩

theorem Str_compare_first_difference_witness :
    Str_compare true (some ⟨[97, 98, 99, 0], 0⟩) (some ⟨[97, 98, 100, 101, 0], 0⟩)
      = some ((100 : Int) - 99) :=
  (Str_compare_first_difference true ⟨[97, 98, 99, 0], 0⟩ ⟨[97, 98, 100, 101, 0], 0⟩
    [97, 98, 99] [97, 98, 100, 101] 2 (by decide) (by decide) (by decide) (by decide)
    (by decide) (by decide)).1

/-- C7 (as stated, refuted): the empty string is a prefix of `"a"`, the scan
meets its sentinel at once, and the final statement reads `str1[-1]`, outside
the object: `Str_compare("", "a")` has no defined result, for either signedness
of `char`. -/
theorem Str_compare_empty_prefix_counterexample :
    cstr ⟨[0], 0⟩ = some [] ∧ cstr ⟨[97, 0], 0⟩ = some [97] ∧
    ([] : List Byte) <+: [97] ∧
    Str_compare true (some ⟨[0], 0⟩) (some ⟨[97, 0], 0⟩) = none ∧
    Str_compare false (some ⟨[0], 0⟩) (some ⟨[97, 0], 0⟩) = none := by
  decide

/-- C7 (amended): for non-absent, non-empty strings `a` and `b` one of which is a
prefix of the other (the scan meets a sentinel before any differing byte),
`Str_compare(a, b)` returns the last content byte of `b` minus the last content
byte of `a` (as `char` values promoted to `int`), whatever the lengths. -/
theorem Str_compare_prefix_last_bytes (sgn : Bool) (a b : Ptr) (sa sb : List Byte)
    (la lb : Byte) (ha : cstr a = some sa) (hb : cstr b = some sb)
    (hpre : sa <+: sb ∨ sb <+: sa)
    (hla : sa.getLast? = some la) (hlb : sb.getLast? = some lb) :
    Str_compare sgn (some a) (some b) = some (charToInt sgn lb - charToInt sgn la) := by
  rw [Str_compare_tie sgn ha hb hpre, lastBytes, load_last ha hla, load_last hb hlb]
  rfl

theorem Str_compare_prefix_last_bytes_witness :
    Str_compare true (some ⟨[97, 98, 0], 0⟩) (some ⟨[97, 98, 99, 0], 0⟩)
      = some (charToInt true 99 - charToInt true 98) :=
  Str_compare_prefix_last_bytes true ⟨[97, 98, 0], 0⟩ ⟨[97, 98, 99, 0], 0⟩ [97, 98] [97, 98, 99]
    98 99 (by decide) (by decide) (by decide) (by decide) (by decide)

/-- C8: for non-absent strings `a` and `b` neither of which is a prefix of the
other, `Str_compare(a, b)` and `Str_compare(b, a)` both return, and
`Str_compare(a, b) == -Str_compare(b, a)`. -/
theorem Str_compare_antisymmetric (sgn : Bool) (a b : Ptr) (sa sb : List Byte)
    (ha : cstr a = some sa) (hb : cstr b = some sb)
    (hab : ¬ sa <+: sb) (hba : ¬ sb <+: sa) :
    ∃ r : Int, Str_compare sgn (some a) (some b) = some r ∧
      Str_compare sgn (some b) (some a) = some (-r) := by
  obtain ⟨i, hia, hib, hne, hpre⟩ := exists_first_diff sa sb hab hba
  refine ⟨_, Str_compare_diff sgn ha hb hia hib hne hpre, ?_⟩
  rw [Str_compare_diff sgn hb ha hib hia (Ne.symm hne) (fun j hj => (hpre j hj).symm)]
  congr 1
  omega

theorem Str_compare_antisymmetric_witness :
    ∃ r : Int, Str_compare false (some ⟨[97, 200, 0], 0⟩) (some ⟨[97, 98, 99, 0], 0⟩) = some r ∧
      Str_compare false (some ⟨[97, 98, 99, 0], 0⟩) (some ⟨[97, 200, 0], 0⟩) = some (-r) :=
  Str_compare_antisymmetric false ⟨[97, 200, 0], 0⟩ ⟨[97, 98, 99, 0], 0⟩ [97, 200] [97, 98, 99]
    (by decide) (by decide) (by decide) (by decide)

/-! ## Byte search -/

theorem hit_in_bounds {sgn : Bool} {p : Ptr} {c : Int} {k : Nat} (h : hit sgn p c k = true) :
    p.off + k < p.buf.length := by
  unfold hit at h
  rw [load_nat] at h
  by_contra hlt
  rw [List.getElem?_eq_none (by simp; omega)] at h
  simp at h

theorem Str_memchr_found (sgn : Bool) (p : Ptr) (c len : Int) (k : Nat)
    (hk : (k : Int) < len) (hhit : hit sgn p c k = true)
    (hfirst : ∀ j, j < k → hit sgn p c j = false) :
    Str_memchr sgn (some p) c len = some (some ⟨p.buf, p.off + k⟩) := by
  have h := Str_memchr_loop_found sgn p c len k hk hhit hfirst (hit_in_bounds hhit)
    (len.toNat + 1) 0 (Nat.zero_le _) (by omega)
  simpa [Str_memchr] using h

theorem Str_memchr_none (sgn : Bool) (p : Ptr) (c len : Int)
    (hbound : p.off + len.toNat ≤ p.buf.length)
    (hnone : ∀ j : Nat, (j : Int) < len → hit sgn p c j = false) :
    Str_memchr sgn (some p) c len = some none := by
  have h := Str_memchr_loop_none sgn p c len hnone hbound (len.toNat + 1) 0 (Nat.zero_le _)
    (by omega)
  simpa [Str_memchr] using h

theorem exists_first_hit (sgn : Bool) (p : Ptr) (c : Int) :
    ∀ (k : Nat), hit sgn p c k = true →
      ∃ i, i ≤ k ∧ hit sgn p c i = true ∧ ∀ j, j < i → hit sgn p c j = false := by
  intro k
  induction k using Nat.strong_induction_on with
  | _ k ih =>
    intro hk
    by_cases hex : ∃ j, j < k ∧ hit sgn p c j = true
    · obtain ⟨j, hj, hjt⟩ := hex
      obtain ⟨i, hi, hit1, hfirst⟩ := ih j hj hjt
      exact ⟨i, by omega, hit1, hfirst⟩
    · refine ⟨k, le_refl _, hk, fun j hj => ?_⟩
      cases hh : hit sgn p c j with
      | false => rfl
      | true => exact absurd ⟨j, hj, hh⟩ hex

/-- C9: when `buffer` holds at least `len` bytes, `Str_memchr(buffer, target, len)`
returns the pointer `buffer + i` for the first index `i < len` whose byte equals
`target`, and returns `NULL` exactly when no index below `len` has such a byte;
an absent buffer gives `NULL`.  Zero bytes play no part in the scan. -/
theorem Str_memchr_spec (sgn : Bool) (p : Ptr) (c len : Int)
    (hbound : p.off + len.toNat ≤ p.buf.length) :
    (∀ i : Nat, (i : Int) < len → hit sgn p c i = true →
      (∀ j, j < i → hit sgn p c j = false) →
      Str_memchr sgn (some p) c len = some (some ⟨p.buf, p.off + i⟩)) ∧
    (Str_memchr sgn (some p) c len = some none ↔
      ∀ i : Nat, (i : Int) < len → hit sgn p c i = false) ∧
    Str_memchr sgn none c len = some none := by
  refine ⟨fun i hi hh hf => Str_memchr_found sgn p c len i hi hh hf, ⟨?_, ?_⟩, rfl⟩
  · intro hres i hi
    cases hh : hit sgn p c i with
    | false => rfl
    | true =>
      obtain ⟨k, hk, hkt, hfirst⟩ := exists_first_hit sgn p c i hh
      rw [Str_memchr_found sgn p c len k (by omega) hkt hfirst] at hres
      simp at hres
  · exact Str_memchr_none sgn p c len hbound

theorem Str_memchr_spec_witness :
    Str_memchr true (some hello) 108 5 = some (some ⟨hello.buf, hello.off + 2⟩) ∧
    Str_memchr true (some hello) 122 5 = some none ∧
    Str_memchr true (some ⟨[104, 0, 0, 108, 7], 0⟩) 108 4
      = some (some ⟨[104, 0, 0, 108, 7], 0 + 3⟩) :=
  ⟨(Str_memchr_spec true hello 108 5 (by decide)).1 2 (by decide) (by decide) (by decide),
   (Str_memchr_spec true hello 122 5 (by decide)).2.1.mpr (fun i hi => by
     have hi5 : i < 5 := by omega
     interval_cases i <;> decide),
   (Str_memchr_spec true ⟨[104, 0, 0, 108, 7], 0⟩ 108 4 (by decide)).1 3 (by decide)
     (by decide) (by decide)⟩

/-- C10 (as stated, refuted): the target is not reduced to 8 bits.  With
`c = 'l' + 256` nothing in `"hello"` matches although `c mod 256 = 'l'` is found
at position 2, whatever the signedness of `char`; and where `char` is signed the
byte 200 is not found by its unsigned value 200. -/
theorem Str_memchr_mod_256_counterexample :
    (364 : Int) % 256 = 108 ∧
    Str_memchr true (some hello) 364 5 = some none ∧
    Str_memchr true (some hello) (364 % 256) 5 = some (some ⟨hello.buf, 2⟩) ∧
    Str_memchr false (some hello) 364 5 = some none ∧
    Str_memchr false (some hello) (364 % 256) 5 = some (some ⟨hello.buf, 2⟩) ∧
    Str_memchr true (some ⟨[200, 0], 0⟩) 200 2 = some none := by
  decide

theorem charToInt_eq_iff (sgn : Bool) (b : Byte) (c : Int) :
    charToInt sgn b = c ↔
      ((if sgn then -128 ≤ c ∧ c ≤ 127 else 0 ≤ c ∧ c ≤ 255) ∧ (b.val : Int) = c % 256) := by
  have hb := b.isLt
  cases sgn <;> simp only [charToInt, Bool.false_and, Bool.true_and, Bool.false_eq_true,
    if_false, if_true, decide_eq_true_eq]
  · constructor
    · intro h; omega
    · intro h; omega
  · split
    · constructor
      · intro h; omega
      · intro h; omega
    · constructor
      · intro h; omega
      · intro h; omega

/-- C10 (amended): `Str_memchr` compares each byte, promoted from `char` to `int`,
with `c` itself; `c` is not reduced to 8 bits.  The byte at index `i` matches
exactly when `c` lies in the range of `char` and the byte equals the low 8 bits
of `c`.  For `c` outside the range of `char` no byte matches and, the buffer
holding `len` bytes, the result is `NULL`; in particular, where `char` is
signed, no target `c >= 128` is found.  Where `char` is unsigned every byte,
those from 128 up included, matches its unsigned value. -/
theorem Str_memchr_compares_promoted (sgn : Bool) (p : Ptr) (c len : Int)
    (hbound : p.off + len.toNat ≤ p.buf.length) :
    (∀ i : Nat, hit sgn p c i = true ↔
      ((if sgn then -128 ≤ c ∧ c ≤ 127 else 0 ≤ c ∧ c ≤ 255) ∧
        ∃ b : Byte, load (some p) (i : Int) = some b ∧ (b.val : Int) = c % 256)) ∧
    (¬ (if sgn then -128 ≤ c ∧ c ≤ 127 else 0 ≤ c ∧ c ≤ 255) →
      Str_memchr sgn (some p) c len = some none) ∧
    (sgn = true → 128 ≤ c → Str_memchr sgn (some p) c len = some none) ∧
    (sgn = false → ∀ (i : Nat) (b : Byte), load (some p) (i : Int) = some b →
      hit sgn p (b.val : Int) i = true) := by
  have hhit : ∀ i : Nat, hit sgn p c i = true ↔
      ((if sgn then -128 ≤ c ∧ c ≤ 127 else 0 ≤ c ∧ c ≤ 255) ∧
        ∃ b : Byte, load (some p) (i : Int) = some b ∧ (b.val : Int) = c % 256) := by
    intro i
    unfold hit
    cases hl : load (some p) (i : Int) with
    | none => simp
    | some b =>
      simp only [decide_eq_true_eq, charToInt_eq_iff, Option.some.injEq, exists_eq_left']
  have hout : ¬ (if sgn then -128 ≤ c ∧ c ≤ 127 else 0 ≤ c ∧ c ≤ 255) →
      Str_memchr sgn (some p) c len = some none := by
    intro hr
    refine Str_memchr_none sgn p c len hbound (fun j _ => ?_)
    cases hh : hit sgn p c j with
    | false => rfl
    | true => exact absurd ((hhit j).mp hh).1 hr
  refine ⟨hhit, hout, fun hs hc => hout ?_, fun hs i b hl => ?_⟩
  · subst hs
    simp only [if_true]
    omega
  · subst hs
    simp [hit, hl, charToInt]

theorem Str_memchr_compares_promoted_witness :
    Str_memchr true (some hello) 364 5 = some none ∧
    Str_memchr false (some ⟨[200, 0], 0⟩) 256 2 = some none ∧
    Str_memchr true (some ⟨[200, 0], 0⟩) 200 2 = some none ∧
    hit false ⟨[200, 0], 0⟩ ((200 : Byte).val : Int) 0 = true :=
  ⟨(Str_memchr_compares_promoted true hello 364 5 (by decide)).2.1 (by decide),
   (Str_memchr_compares_promoted false ⟨[200, 0], 0⟩ 256 2 (by decide)).2.1 (by decide),
   (Str_memchr_compares_promoted true ⟨[200, 0], 0⟩ 200 2 (by decide)).2.2.1 rfl (by decide),
   (Str_memchr_compares_promoted false ⟨[200, 0], 0⟩ 0 2 (by decide)).2.2.2 rfl 0 200
     (by decide)⟩

/-! ## Error results -/

/-- C15: `Str_string_to_integer(s, base)` returns 0 when `s` is absent, for any
base, and when `base < 2`, for any `s` (terminated or not). -/
theorem Str_string_to_integer_invalid (sgn : Bool) (s : CharPtr) (base : Int) :
    Str_string_to_integer sgn none base = some 0 ∧
    (base < 2 → Str_string_to_integer sgn s base = some 0) := by
  refine ⟨rfl, fun hb => ?_⟩
  cases s with
  | none => rfl
  | some p => simp [Str_string_to_integer, hb]

theorem Str_string_to_integer_invalid_witness :
    Str_string_to_integer true none 10 = some 0 ∧
    Str_string_to_integer true (some ⟨[49, 50], 0⟩) 1 = some 0 :=
  ⟨(Str_string_to_integer_invalid true none 10).1,
   (Str_string_to_integer_invalid true (some ⟨[49, 50], 0⟩) 1).2 (by decide)⟩

/-- C16: `Str_compare(a, b)` returns `INT_MIN` when `a` is absent and when `b` is
absent, whatever the other argument is. -/
theorem Str_compare_absent (sgn : Bool) (a b : CharPtr) :
    Str_compare sgn none b = some INT_MIN ∧ Str_compare sgn a none = some INT_MIN ∧
    INT_MIN = -2 ^ 31 := by
  refine ⟨rfl, ?_, by decide⟩
  cases a <;> rfl

theorem cstr_of_load_zero {p : Ptr} {k : Nat} (h : load (some p) (k : Int) = some 0) :
    ∃ s, cstr p = some s := by
  rw [load_nat] at h
  have hmem : (0 : Byte) ∈ p.buf.drop p.off := List.getElem?_mem h
  unfold cstr
  simp only
  split
  · exact ⟨_, rfl⟩
  · rename_i hlt
    exfalso
    have heq : (p.buf.drop p.off).takeWhile (fun c : Byte => c != 0) = p.buf.drop p.off :=
      (List.takeWhile_prefix _).eq_of_length_le (by omega)
    have := List.takeWhile_eq_self_iff.mp heq 0 hmem
    simp at this

/-- C18: for a null-terminated string (some index holds the zero byte),
`Str_len` returns the number `n` of bytes before the sentinel: `s[n]` is the
zero byte, `s[i]` is non-zero for every `i < n`, and `n` is the only index with
these two properties. -/
theorem Str_len_spec (p : Ptr) (k : Nat) (hterm : load (some p) (k : Int) = some 0) :
    ∃ n : Nat, Str_len (some p) = some n ∧ load (some p) (n : Int) = some 0 ∧
      (∀ i : Nat, i < n → ∃ c, load (some p) (i : Int) = some c ∧ c ≠ 0) ∧
      (∀ m : Nat, load (some p) (m : Int) = some 0 →
        (∀ i : Nat, i < m → load (some p) (i : Int) ≠ some 0) → m = n) := by
  obtain ⟨s, hs⟩ := cstr_of_load_zero hterm
  have hnz : ∀ i : Nat, i < s.length → ∃ c, load (some p) (i : Int) = some c ∧ c ≠ 0 := by
    intro i hi
    refine ⟨s[i], ?_, cstr_ne_zero hs i hi⟩
    rw [load_cstr hs i hi, List.getElem?_eq_getElem hi]
  refine ⟨s.length, Str_len_cstr hs, load_cstr_end hs, hnz, ?_⟩
  intro m hm hfirst
  rcases Nat.lt_trichotomy m s.length with h | h | h
  · obtain ⟨c, hc, hc0⟩ := hnz m h
    rw [hc] at hm
    exact absurd (Option.some.inj hm) hc0
  · exact h
  · exact absurd (load_cstr_end hs) (hfirst s.length h)

theorem Str_len_spec_witness :
    ∃ n : Nat, Str_len (some hello) = some n ∧ load (some hello) (n : Int) = some 0 ∧
      (∀ i : Nat, i < n → ∃ c, load (some hello) (i : Int) = some c ∧ c ≠ 0) ∧
      (∀ m : Nat, load (some hello) (m : Int) = some 0 →
        (∀ i : Nat, i < m → load (some hello) (i : Int) ≠ some 0) → m = n) :=
  Str_len_spec hello 5 (by decide)

/-! ## Range and zero results of the comparison -/

theorem charToInt_sub_bounds (sgn : Bool) (x y : Byte) :
    -255 ≤ charToInt sgn x - charToInt sgn y ∧ charToInt sgn x - charToInt sgn y ≤ 255 := by
  have hx := x.isLt
  have hy := y.isLt
  cases sgn <;> simp only [charToInt, Bool.false_and, Bool.true_and, Bool.false_eq_true,
    if_false, decide_eq_true_eq]
  · omega
  · split <;> split <;> omega

theorem getLast?_of_ne_nil {s : List Byte} (h : s ≠ []) : ∃ c, s.getLast? = some c :=
  ⟨s.getLast h, List.getLast?_eq_getLast s h⟩

/-- C19: for non-absent, non-empty strings `a` and `b`, `Str_compare(a, b)`
returns a value in the range -255 .. 255, which is never the `INT_MIN` that
signals an absent argument. -/
theorem Str_compare_range (sgn : Bool) (a b : Ptr) (sa sb : List Byte)
    (ha : cstr a = some sa) (hb : cstr b = some sb) (hna : sa ≠ []) (hnb : sb ≠ []) :
    ∃ r : Int, Str_compare sgn (some a) (some b) = some r ∧ -255 ≤ r ∧ r ≤ 255 ∧
      r ≠ INT_MIN := by
  have key : ∃ x y : Byte,
      Str_compare sgn (some a) (some b) = some (charToInt sgn y - charToInt sgn x) := by
    by_cases hpre : sa <+: sb ∨ sb <+: sa
    · obtain ⟨la, hla⟩ := getLast?_of_ne_nil hna
      obtain ⟨lb, hlb⟩ := getLast?_of_ne_nil hnb
      refine ⟨la, lb, ?_⟩
      rw [Str_compare_tie sgn ha hb hpre, lastBytes, load_last ha hla, load_last hb hlb]
      rfl
    · obtain ⟨i, hia, hib, hne, hfirst⟩ :=
        exists_first_diff sa sb (fun h => hpre (Or.inl h)) (fun h => hpre (Or.inr h))
      exact ⟨sa[i], sb[i], Str_compare_diff sgn ha hb hia hib hne hfirst⟩
  obtain ⟨x, y, hxy⟩ := key
  have hb2 := charToInt_sub_bounds sgn y x
  refine ⟨_, hxy, hb2.1, hb2.2, ?_⟩
  have : INT_MIN = -2147483648 := rfl
  omega

theorem Str_compare_range_witness :
    ∃ r : Int, Str_compare false (some ⟨[255, 0], 0⟩) (some ⟨[1, 0], 0⟩) = some r ∧
      -255 ≤ r ∧ r ≤ 255 ∧ r ≠ INT_MIN :=
  Str_compare_range false ⟨[255, 0], 0⟩ ⟨[1, 0], 0⟩ [255] [1] (by decide) (by decide)
    (by decide) (by decide)

/-- C20: a zero result of `Str_compare` does not imply equal contents.  For
non-absent strings `a` and `b` with different contents, one a non-empty prefix
of the other and both ending in the same byte, `Str_compare(a, b)` returns 0;
`"a"` and `"aa"` are such a pair. -/
theorem Str_compare_zero_on_unequal (sgn : Bool) (a b : Ptr) (sa sb : List Byte) (c : Byte)
    (ha : cstr a = some sa) (hb : cstr b = some sb)
    (hpre : sa <+: sb ∨ sb <+: sa) (hne : sa ≠ sb)
    (hla : sa.getLast? = some c) (hlb : sb.getLast? = some c) :
    Str_compare sgn (some a) (some b) = some 0 ∧ cstr a ≠ cstr b := by
  refine ⟨?_, ?_⟩
  · rw [Str_compare_tie sgn ha hb hpre, lastBytes, load_last ha hla, load_last hb hlb]
    simp
  · rw [ha, hb]
    exact fun h => hne (Option.some.inj h)

theorem Str_compare_zero_on_unequal_witness :
    Str_compare true (some ⟨[97, 0], 0⟩) (some ⟨[97, 97, 0], 0⟩) = some 0 ∧
    cstr ⟨[97, 0], 0⟩ ≠ cstr ⟨[97, 97, 0], 0⟩ :=
  Str_compare_zero_on_unequal true ⟨[97, 0], 0⟩ ⟨[97, 97, 0], 0⟩ [97] [97, 97] 97
    (by decide) (by decide) (by decide) (by decide) (by decide) (by decide)

/-! ## Integer parsing -/

theorem Str_string_to_integer_loop_sum (sgn : Bool) {q : Ptr} {t : List Byte}
    (hq : cstr q = some t) (base : Int) :
    ∀ (d fuel i : Nat) (num : Int), i + d = t.length → d < fuel →
      Str_string_to_integer.loop sgn q base (t.length : Int) fuel i num =
        some (num + ((List.range' i d).map fun j =>
          (charToInt sgn (t.getD j 0) - 48) * base ^ (t.length - 1 - j)).sum) := by
  intro d
  induction d with
  | zero =>
    intro fuel i num hi hf
    obtain ⟨fuel, rfl⟩ : ∃ f, fuel = f + 1 := ⟨fuel - 1, by omega⟩
    unfold Str_string_to_integer.loop
    have : ¬ ((i : Int) < (t.length : Int)) := by omega
    simp [this]
  | succ d ih =>
    intro fuel i num hi hf
    obtain ⟨fuel, rfl⟩ : ∃ f, fuel = f + 1 := ⟨fuel - 1, by omega⟩
    unfold Str_string_to_integer.loop
    have hlt : i < t.length := by omega
    have hlt2 : (i : Int) < (t.length : Int) := by omega
    have hpow : pow base ((t.length : Int) - (i : Int) - 1) = base ^ (t.length - 1 - i) := by
      have : ((t.length : Int) - (i : Int) - 1).toNat = t.length - 1 - i := by omega
      simp only [pow, this]
    simp only [hlt2, if_true, load_cstr hq i hlt, List.getElem?_eq_getElem hlt,
      Option.bind_eq_bind, Option.some_bind, hpow]
    rw [ih fuel (i + 1) _ (by omega) (by omega), List.range'_succ, List.map_cons, List.sum_cons,
      List.getD_eq_getElem _ _ hlt]
    congr 1
    ring

theorem Str_string_to_integer_loop_value (sgn : Bool) {q : Ptr} {t : List Byte}
    (hq : cstr q = some t) (base : Int) (fuel : Nat) (hf : t.length < fuel) :
    Str_string_to_integer.loop sgn q base (t.length : Int) fuel 0 0
      = some (digitSum sgn base t) := by
  rw [Str_string_to_integer_loop_sum sgn hq base t.length fuel 0 0 (by omega) hf, digitSum,
    List.range_eq_range', zero_add]

/-- C14: for `base >= 2` and a string whose content is an optional leading `-`
(byte 45) followed by the bytes `c_0 .. c_(k-1)`, `Str_string_to_integer` returns
`sign * sum_i (c_i - 48) * base ^ (k - 1 - i)`, with `sign = -1` exactly when the
leading `-` is there (`pow` exact, `long` wide enough). -/
theorem Str_string_to_integer_spec (sgn : Bool) (p : Ptr) (s : List Byte) (base : Int)
    (hp : cstr p = some s) (hb : 2 ≤ base) :
    (∀ t, s = 45 :: t →
      Str_string_to_integer sgn (some p) base = some (-(digitSum sgn base t))) ∧
    (s.head? ≠ some 45 →
      Str_string_to_integer sgn (some p) base = some (digitSum sgn base s)) := by
  have hb2 : ¬ base < 2 := by omega
  have hl := Str_len_cstr hp
  constructor
  · intro t ht
    subst ht
    have h0 := load_cstr_head hp
    have hv := Str_string_to_integer_loop_value sgn (cstr_succ hp) base ((45 :: t).length + 1)
      (by simp only [List.length_cons]; omega)
    have hlen : (((45 :: t : List Byte).length : Nat) : Int) - 1 = (t.length : Int) := by
      simp
    simp only [Str_string_to_integer, hb2, if_false, hl, h0, Option.bind_eq_bind,
      Option.some_bind, if_true, hlen, hv]
    rfl
  · intro hne
    have hv := Str_string_to_integer_loop_value sgn hp base (s.length + 1) (by omega)
    cases s with
    | nil =>
      have h0 := load_cstr_nil hp
      simp only [Str_string_to_integer, hb2, if_false, hl, h0, Option.bind_eq_bind,
        Option.some_bind]
      simp only [List.length_nil] at hv
      rw [if_neg (by decide)]
      simp only [hv]
      rfl
    | cons c t =>
      have h0 := load_cstr_head hp
      have hc : c ≠ 45 := fun h => hne (by simp [h])
      simp only [Str_string_to_integer, hb2, if_false, hl, h0, Option.bind_eq_bind,
        Option.some_bind, hc, hv]
      rfl

theorem Str_string_to_integer_spec_witness :
    Str_string_to_integer true (some ⟨[45, 49, 50, 51, 0], 0⟩) 10
      = some (-(digitSum true 10 [49, 50, 51])) ∧
    digitSum true 10 [49, 50, 51] = 123 :=
  ⟨(Str_string_to_integer_spec true ⟨[45, 49, 50, 51, 0], 0⟩ [45, 49, 50, 51] 10
      (by decide) (by decide)).1 [49, 50, 51] rfl,
   by decide⟩

/-! ## Bounded copy -/

theorem Str_copy_n_loop_spec {p : Ptr} {s : List Byte} (hp : cstr p = some s) (n : Nat) :
    ∀ (fuel i : Nat) (buf : List Byte), i ≤ min n s.length → min n s.length < fuel + i →
      n < buf.length →
      ∃ r, Str_copy_n.loop (some p) (n : Int) fuel i buf = some r ∧ r.length = buf.length ∧
        (∀ j, i ≤ j → j ≤ min n s.length → r[j]? = (s.take n ++ [0])[j]?) ∧
        (∀ j, j < i → r[j]? = buf[j]?) := by
  intro fuel
  induction fuel with
  | zero => intro i buf h1 h2; omega
  | succ fuel ih =>
    intro i buf h1 h2 hlen
    have hmin : min n s.length ≤ n ∧ min n s.length ≤ s.length := ⟨min_le_left _ _, min_le_right _ _⟩
    have htl : (s.take n).length = min n s.length := List.length_take _ _
    unfold Str_copy_n.loop
    by_cases hin : (i : Int) < (n : Int)
    · have hin2 : i < n := by omega
      have hib : i < buf.length := by omega
      by_cases hil : i < s.length
      · -- a content byte is copied and the loop goes on
        have hne := cstr_ne_zero hp i hil
        simp only [hin, if_true, load_cstr hp i hil, List.getElem?_eq_getElem hil,
          Option.bind_eq_bind, Option.some_bind, store, hib, hne, if_false, Option.pure_def]
        obtain ⟨r, hr, hrl, hset, hkeep⟩ := ih (i + 1) (buf.set i s[i]) (by omega) (by omega)
          (by rw [List.length_set]; exact hlen)
        refine ⟨r, hr, by rw [hrl, List.length_set], ?_, ?_⟩
        · intro j hj hjm
          rcases Nat.eq_or_lt_of_le hj with he | hlt
          · subst he
            rw [hkeep i (by omega), List.getElem?_set_self hib,
              List.getElem?_append_left (by omega), List.getElem?_take_of_lt hin2,
              List.getElem?_eq_getElem hil]
          · exact hset j hlt hjm
        · intro j hj
          rw [hkeep j (by omega), List.getElem?_set_ne (by omega)]
      · -- the sentinel of the source is copied and the function returns
        have hie : i = s.length := by omega
        subst hie
        simp only [hin, if_true, load_cstr_end hp, Option.bind_eq_bind, Option.some_bind, store,
          hib, Option.pure_def]
        refine ⟨buf.set s.length 0, rfl, List.length_set _ _ _, ?_, ?_⟩
        · intro j hj hjm
          have hje : j = s.length := by omega
          subst hje
          rw [List.getElem?_set_self hib, List.getElem?_append_right (by omega)]
          simp [htl, Nat.min_eq_right (le_of_lt hin2)]
        · intro j hj
          rw [List.getElem?_set_ne (by omega)]
    · -- n bytes were copied: the sentinel is appended
      have hie : i = n := by omega
      subst hie
      have hib : i < buf.length := hlen
      simp only [hin, if_false, store, hib, if_true]
      refine ⟨buf.set i 0, rfl, List.length_set _ _ _, ?_, ?_⟩
      · intro j hj hjm
        have hje : j = i := by omega
        subst hje
        rw [List.getElem?_set_self hib, List.getElem?_append_right (by omega)]
        simp [htl, Nat.min_eq_left (show j ≤ s.length by omega)]
      · intro j hj
        rw [List.getElem?_set_ne (by omega)]

theorem toSizeT_of_nat (k : Nat) (hk : k < 18446744073709551616) : toSizeT (k : Int) = k := by
  unfold toSizeT
  omega

/-- C11: for a string `s` (content `cs`), a non-`NULL` `Child` and `n >= 0`, when
the allocation of `n + 1` bytes succeeds `Str_copy_n(s, Child, n)` returns a
fresh object of `n + 1` bytes holding a terminated string whose content is the
first `min(n, Str_len(s))` bytes of `s`: all of `s` when the sentinel is met
within the first `n` bytes, and `n` bytes followed by an appended sentinel
otherwise. -/
theorem Str_copy_n_spec (A : Allocator) (p Child : Ptr) (cs : List Byte) (n : Nat)
    (hp : cstr p = some cs) (hn : n < 2147483647) (hm : A.fails (n + 1) = false) :
    ∃ r : Ptr, Str_copy_n A (some p) (some Child) (n : Int) = some (some r) ∧
      r.off = 0 ∧ r.buf.length = n + 1 ∧
      cstr r = some (cs.take n) ∧ (cs.take n).length = min n cs.length ∧
      (cs.length < n → cstr r = some cs) ∧
      (n ≤ cs.length → r.buf = cs.take n ++ [0]) := by
  have hsz : toSizeT ((n : Int) + 1) = n + 1 := by
    have := toSizeT_of_nat (n + 1) (by omega)
    simpa using this
  obtain ⟨r, hr, hrl, hset, -⟩ := Str_copy_n_loop_spec hp n (n + 1) 0
    (List.map A.junk (List.range (n + 1))) (Nat.zero_le _)
    (by have := min_le_left n cs.length; omega) (by simp)
  have hrl2 : r.length = n + 1 := by simpa using hrl
  have hmin : min n cs.length ≤ n := min_le_left _ _
  have htl : (cs.take n).length = min n cs.length := List.length_take _ _
  have htake : r.take (min n cs.length + 1) = cs.take n ++ [0] := by
    apply List.ext_getElem?
    intro j
    by_cases hj : j ≤ min n cs.length
    · rw [List.getElem?_take_of_lt (by omega), hset j (Nat.zero_le _) hj]
    · rw [List.getElem?_eq_none (by simp; omega), List.getElem?_eq_none (by simp; omega)]
  have hsplit : r = cs.take n ++ 0 :: r.drop (min n cs.length + 1) := by
    conv_lhs => rw [← List.take_append_drop (min n cs.length + 1) r, htake]
    simp
  have hnz : ∀ c ∈ cs.take n, c ≠ 0 := fun c hc => (cstr_spec hp).1 c (List.mem_of_mem_take hc)
  have hcs : cstr ⟨r, 0⟩ = some (cs.take n) :=
    cstr_of_eq (r.drop (min n cs.length + 1)) hnz (by simpa using hsplit)
  refine ⟨⟨r, 0⟩, ?_, rfl, hrl2, hcs, htl, ?_, ?_⟩
  · have : (n : Int).toNat = n := by omega
    simp only [Str_copy_n, hsz, malloc, hm, Bool.false_eq_true, if_false, this, hr,
      Option.bind_eq_bind, Option.some_bind, Option.pure_def]
  · intro hlt
    rw [hcs, List.take_of_length_le (le_of_lt hlt)]
  · intro hle
    have hmn : min n cs.length = n := Nat.min_eq_left hle
    rw [hmn] at htake
    rw [← htake, List.take_of_length_le (by omega)]

theorem Str_copy_n_spec_witness :
    cstr hello = some [104, 101, 108, 108, 111] ∧
    ∃ r : Ptr, Str_copy_n okAlloc (some hello) (some ⟨[1], 0⟩) ((3 : Nat) : Int) = some (some r) ∧
      r.off = 0 ∧ r.buf.length = 3 + 1 ∧
      cstr r = some (List.take 3 [104, 101, 108, 108, 111]) ∧
      (List.take 3 ([104, 101, 108, 108, 111] : List Byte)).length = min 3 5 ∧
      (5 < 3 → cstr r = some [104, 101, 108, 108, 111]) ∧
      (3 ≤ 5 → r.buf = List.take 3 [104, 101, 108, 108, 111] ++ [0]) :=
  ⟨by decide,
   Str_copy_n_spec okAlloc hello ⟨[1], 0⟩ [104, 101, 108, 108, 111] 3 (by decide) (by decide) rfl⟩

/-- C12 (the code at the failing input): `Str_concatenate_n("a", "b", 1)`.
`temp` is the 2-byte object `Str_copy(str2, temp)` returned; the loop puts `a`
over its sentinel at index 1 and `temp[1 + Str_len(str2)] = 0` then writes
index 2, outside the object: there is no defined result.  With `n = 0` the
result is a copy of `"b"`. -/
theorem Str_concatenate_n_overflow :
    Str_concatenate_n okAlloc (some ⟨[97, 0], 0⟩) (some ⟨[98, 0], 0⟩) 1 = none ∧
    Str_concatenate_n okAlloc (some ⟨[97, 99, 0], 0⟩) (some ⟨[98, 0], 0⟩) 2 = none ∧
    Str_concatenate_n okAlloc (some ⟨[97, 0], 0⟩) (some ⟨[98, 0], 0⟩) 0
      = some (some ⟨[98, 0], 0⟩) := by
  decide

/-! ## Swap -/

theorem heapView_cstr {h : Heap} {q : HPtr} {p : Ptr} {s : List Byte}
    (hv : heapView h (some q) = some p) (hs : cstr p = some s) :
    q.obj < h.length ∧ h[q.obj]? = some (some p.buf) ∧ p.off = q.off := by
  unfold heapView at hv
  simp only at hv
  split at hv
  · rename_i buf hb
    have hp : p = ⟨buf, q.off⟩ := (Option.some.inj hv).symm
    subst hp
    refine ⟨?_, hb, rfl⟩
    by_contra hlt
    rw [List.getElem?_eq_none (by omega)] at hb
    cases hb
  · have hp : p = ⟨[], q.off⟩ := (Option.some.inj hv).symm
    subst hp
    have := cstr_length_lt hs
    simp at this

theorem getElem?_append_length {α : Type} (h : List α) (x : α) (t : List α) :
    (h ++ x :: t)[h.length]? = some x := by
  rw [List.getElem?_append_right (le_refl _)]
  simp

theorem heapView_of_getElem? {h : Heap} {q : HPtr} {buf : List Byte}
    (hb : h[q.obj]? = some (some buf)) : heapView h (some q) = some ⟨buf, q.off⟩ := by
  simp only [heapView, hb]

theorem Str_copy_onHeap_eq (A : Allocator) (h : Heap) (Father : HPtr) (Child : Option HPtr)
    {p : Ptr} {s : List Byte} (hv : heapView h (some Father) = some p) (hs : cstr p = some s)
    (hm : A.fails (s.length + 1) = false) :
    Str_copy.onHeap A h (some Father) Child
      = some (some ⟨h.length, 0⟩, h ++ [some (s ++ [0])]) := by
  simp only [Str_copy.onHeap, hv, Str_copy_eq A _ hs hm]

/-- C13: `Str_swap` leaves the caller's strings as they were.  With `a` or `b`
absent the heap is returned untouched.  With both present (terminated strings,
allocations succeeding) the call ends with every object that existed before it
unchanged, so `a` still holds its content and `b` still holds its content: the
copies went to three new objects, of which the first is freed. -/
theorem Str_swap_no_exchange (A : Allocator) (h : Heap) (a b : HPtr) (x : Option HPtr)
    (pa pb : Ptr) (sa sb : List Byte)
    (hva : heapView h (some a) = some pa) (hvb : heapView h (some b) = some pb)
    (ha : cstr pa = some sa) (hb : cstr pb = some sb)
    (hma : A.fails (sa.length + 1) = false) (hmb : A.fails (sb.length + 1) = false) :
    Str_swap A h none x = some h ∧ Str_swap A h x none = some h ∧
    ∃ h1 : Heap, Str_swap A h (some a) (some b) = some h1 ∧
      (∀ i, i < h.length → h1[i]? = h[i]?) ∧
      heapView h1 (some a) = some pa ∧ heapView h1 (some b) = some pb := by
  refine ⟨rfl, by cases x <;> rfl, ?_⟩
  obtain ⟨hla, hga, hoa⟩ := heapView_cstr hva ha
  obtain ⟨hlb, hgb, hob⟩ := heapView_cstr hvb hb
  have hfresh := cstr_fresh (cstr_spec ha).1
  -- the three copies
  have e1 := Str_copy_onHeap_eq A h a none hva ha hma
  have hvb1 : heapView (h ++ [some (sa ++ [0])]) (some b) = some pb := by
    rw [heapView_of_getElem? (by rw [List.getElem?_append_left hlb]; exact hgb), ← hob]
  have e2 := Str_copy_onHeap_eq A (h ++ [some (sa ++ [0])]) b (some a) hvb1 hb hmb
  have hvt : heapView (h ++ [some (sa ++ [0])] ++ [some (sb ++ [0])]) (some ⟨h.length, 0⟩)
      = some ⟨sa ++ [0], 0⟩ := by
    apply heapView_of_getElem?
    rw [List.append_assoc]
    exact getElem?_append_length h _ _
  have e3 := Str_copy_onHeap_eq A (h ++ [some (sa ++ [0])] ++ [some (sb ++ [0])])
    ⟨h.length, 0⟩ (some b) hvt hfresh hma
  have hfree : free (h ++ [some (sa ++ [0])] ++ [some (sb ++ [0])] ++ [some (sa ++ [0])])
      (some ⟨h.length, 0⟩)
      = some ((h ++ [some (sa ++ [0])] ++ [some (sb ++ [0])] ++ [some (sa ++ [0])]).set
          h.length none) := by
    have hg : (h ++ [some (sa ++ [0])] ++ [some (sb ++ [0])] ++ [some (sa ++ [0])])[h.length]?
        = some (some (sa ++ [0])) := by
      rw [List.append_assoc, List.append_assoc]
      exact getElem?_append_length h _ _
    simp only [free, hg, if_true]
  have hlen1 : (h ++ [some (sa ++ [0])]).length = h.length + 1 := by simp
  have hkeep : ∀ i, i < h.length →
      ((h ++ [some (sa ++ [0])] ++ [some (sb ++ [0])] ++ [some (sa ++ [0])]).set
          h.length none)[i]? = h[i]? := by
    intro i hi
    rw [List.getElem?_set_ne (by omega), List.append_assoc, List.append_assoc,
      List.getElem?_append_left hi]
  refine ⟨_, ?_, hkeep, ?_, ?_⟩
  · simp only [Str_swap, e1, hlen1, e2, e3, hfree]
  · rw [heapView_of_getElem? (by rw [hkeep _ hla]; exact hga), ← hoa]
  · rw [heapView_of_getElem? (by rw [hkeep _ hlb]; exact hgb), ← hob]

theorem Str_swap_no_exchange_witness :
    Str_swap okAlloc [some [97, 0], some [98, 99, 0]] none (some ⟨1, 0⟩)
      = some [some [97, 0], some [98, 99, 0]] ∧
    ∃ h1 : Heap, Str_swap okAlloc [some [97, 0], some [98, 99, 0]] (some ⟨0, 0⟩) (some ⟨1, 0⟩)
        = some h1 ∧
      (∀ i, i < [some [97, 0], some ([98, 99, 0] : List Byte)].length →
        h1[i]? = [some [97, 0], some ([98, 99, 0] : List Byte)][i]?) ∧
      heapView h1 (some ⟨0, 0⟩) = some ⟨[97, 0], 0⟩ ∧
      heapView h1 (some ⟨1, 0⟩) = some ⟨[98, 99, 0], 0⟩ :=
  have w := Str_swap_no_exchange okAlloc [some [97, 0], some [98, 99, 0]] ⟨0, 0⟩ ⟨1, 0⟩
    (some ⟨1, 0⟩) ⟨[97, 0], 0⟩ ⟨[98, 99, 0], 0⟩ [97] [98, 99] (by decide) (by decide)
    (by decide) (by decide) rfl rfl
  ⟨w.1, w.2.2⟩

/-- For a non-empty `str1`, `n >= 1` and successful allocations,
`Str_concatenate_n(str1, str2, n)` has no defined result: after the first byte
of `str1` has replaced the sentinel of `temp`, the next write
(`temp[1 + Str_len(str2)]`) falls outside the `Str_len(str2) + 1` bytes of
`temp`. -/
theorem Str_concatenate_n_undefined (A : Allocator) (a b : Ptr) (sa sb : List Byte) (n : Int)
    (ha : cstr a = some sa) (hb : cstr b = some sb) (hne : sa ≠ []) (hn : 1 ≤ n)
    (hm1 : A.fails (toSizeT ((sa.length : Int) + n + 1)) = false)
    (hm2 : A.fails (sb.length + 1) = false) :
    Str_concatenate_n A (some a) (some b) n = none := by
  obtain ⟨f, hf⟩ : ∃ f, n.toNat + 1 = f + 2 := ⟨n.toNat - 1, by omega⟩
  cases sa with
  | nil => exact absurd rfl hne
  | cons c t =>
    have hc := cstr_head_ne_zero ha
    have h0 := load_cstr_head ha
    have h0' : load (some a) ((0 : Nat) : Int) = some c := by simpa using h0
    obtain ⟨c1, h1⟩ : ∃ c1, load (some a) ((1 : Nat) : Int) = some c1 := by
      have := load_cstr_le ha 1 (by simp)
      rw [List.getElem?_eq_getElem (by simp)] at this
      exact ⟨_, this⟩
    have hs0 : storeAt ⟨sb ++ [0], 0⟩ (0 + sb.length) c
        = some ⟨(sb ++ [0]).set sb.length c, 0⟩ := by
      simp [storeAt, store]
    have hs1 : ∀ x, storeAt ⟨(sb ++ [0]).set sb.length c, 0⟩ (1 + sb.length) x = none := by
      intro x
      have : ¬ (0 + (1 + sb.length) < ((sb ++ [0]).set sb.length c).length) := by
        simp only [List.length_set, List.length_append, List.length_singleton]
        omega
      simp only [storeAt, store, this, if_false, Option.map_none']
    have hpos : ((0 : Nat) : Int) < n := by omega
    simp only [Str_concatenate_n, Str_len_cstr ha, Option.bind_eq_bind, Option.some_bind, malloc,
      hm1, Bool.false_eq_true, if_false, Str_copy_eq A _ hb hm2, hf]
    unfold Str_concatenate_n.loop
    simp only [hpos, if_true, Str_len_cstr hb, h0', Option.bind_eq_bind, Option.some_bind, hs0,
      hc, if_false]
    unfold Str_concatenate_n.loop
    simp only [Str_len_cstr hb, h1, Option.bind_eq_bind, Option.some_bind, hs1,
      Option.none_bind]
    split <;> rfl

theorem Str_concatenate_n_undefined_witness :
    Str_concatenate_n okAlloc (some hello) (some ⟨[98, 0], 0⟩) 3 = none :=
  Str_concatenate_n_undefined okAlloc hello ⟨[98, 0], 0⟩ [104, 101, 108, 108, 111] [98] 3
    (by decide) (by decide) (by decide) (by decide) rfl rfl

/-! ## Comparing a string with itself -/

theorem loadAround_of_load {around : Int → Byte} {q : Ptr} {i : Int} {c : Byte}
    (h : load (some q) i = some c) : loadAround around (some q) i = some c := by
  simp only [loadAround, h]

theorem Str_compare_last_around (sgn : Bool) (ar1 ar2 : Int → Byte) {p1 p2 : Ptr} {r : Int}
    (h : Str_compare.last sgn p1 p2 = some r) :
    Str_compare.lastAround sgn ar1 ar2 p1 p2 = some r := by
  simp only [Str_compare.last, Option.bind_eq_bind, Option.bind_eq_some, Option.pure_def,
    Option.some.injEq] at h
  obtain ⟨n2, hn2, c2, hc2, n1, hn1, c1, hc1, hr⟩ := h
  simp only [Str_compare.lastAround, hn2, hn1, loadAround_of_load hc2, loadAround_of_load hc1,
    Option.bind_eq_bind, Option.some_bind, Option.pure_def, hr]

/-- Where `Str_compare` has a defined result, the run with reads outside the
objects allowed gives the same result. -/
theorem Str_compare_loop_around (sgn : Bool) (ar1 ar2 : Int → Byte) :
    ∀ (fuel : Nat) (p1 p2 : Ptr) (r : Int), Str_compare.loop sgn fuel p1 p2 = some r →
      Str_compare.loopAround sgn ar1 ar2 fuel p1 p2 = some r := by
  intro fuel
  induction fuel with
  | zero => intro p1 p2 r h; simp [Str_compare.loop] at h
  | succ fuel ih =>
    intro p1 p2 r h
    unfold Str_compare.loop at h
    unfold Str_compare.loopAround
    cases h1 : load (some p1) 0 with
    | none => simp [h1] at h
    | some c1 =>
      simp only [h1, Option.bind_eq_bind, Option.some_bind] at h
      simp only [loadAround_of_load h1, Option.bind_eq_bind, Option.some_bind]
      by_cases hc1 : c1 = 0
      · simp only [hc1, ne_eq, not_true_eq_false, if_false] at h ⊢
        exact Str_compare_last_around sgn ar1 ar2 h
      · simp only [hc1, ne_eq, not_false_eq_true, if_true] at h ⊢
        cases h2 : load (some p2) 0 with
        | none => simp [h2] at h
        | some c2 =>
          simp only [h2, Option.some_bind] at h
          simp only [loadAround_of_load h2, Option.some_bind]
          by_cases hc2 : c2 = 0
          · simp only [hc2, not_true_eq_false, if_false] at h ⊢
            exact Str_compare_last_around sgn ar1 ar2 h
          · simp only [hc2, not_false_eq_true, if_true] at h ⊢
            by_cases hcc : c1 = c2
            · simp only [hcc, not_true_eq_false, if_false] at h ⊢
              exact ih _ _ _ h
            · simp only [hcc, not_false_eq_true, if_true] at h ⊢
              exact h

theorem Str_compare_around_of_defined (sgn : Bool) (ar1 ar2 : Int → Byte) (a b : CharPtr)
    (r : Int) (h : Str_compare sgn a b = some r) :
    Str_compare.around sgn ar1 ar2 a b = some r := by
  cases a with
  | none => exact h
  | some p1 =>
    cases b with
    | none => exact h
    | some p2 => exact Str_compare_loop_around sgn ar1 ar2 _ p1 p2 r h

end StrMe
